import Mathlib

set_option maxRecDepth 4000

/-!
Formal model of the Mini C front end (`mini_c_parser.py`): the lexical
scanner, the recursive-descent parser, the AST data model and the tree
renderer, together with proofs of the specified properties.

Embedding conventions:
* The Python `Lexer` object holds the full source plus an integer cursor;
  here the `Lexer` state holds the remaining suffix of the source together
  with the character just before the cursor (needed for the word-boundary
  check of the regex pattern for the keyword).  The two views are
  equivalent: `source[position:]` and `source[position-1]`.
* Python regex character classes are modelled at ASCII (the repository's
  language and all its tests are ASCII-only).
* The scanner's `while` loop and the parser's loops and mutual recursion
  are modelled with an explicit fuel parameter; a distinguished `fuelOut`
  result marks fuel exhaustion.  Theorems show that the chosen fuel
  (a linear function of the input size) is always sufficient, which is the
  formal counterpart of the termination argument.
-/

/-- The closed tag set of lexical categories (Python class `TokenType`). -/
inductive TokenType where
  | INT
  | IDENTIFIER
  | NUMBER
  | PLUS
  | MINUS
  | MULTIPLY
  | DIVIDE
  | ASSIGN
  | SEMICOLON
  | LPAREN
  | RPAREN
  | EOF
deriving DecidableEq, Repr

/-- The `value` of each enum member in the Python `TokenType(Enum)`. -/
def TokenType.value : TokenType → String
  | .INT => "INT"
  | .IDENTIFIER => "IDENTIFIER"
  | .NUMBER => "NUMBER"
  | .PLUS => "PLUS"
  | .MINUS => "MINUS"
  | .MULTIPLY => "MULTIPLY"
  | .DIVIDE => "DIVIDE"
  | .ASSIGN => "ASSIGN"
  | .SEMICOLON => "SEMICOLON"
  | .LPAREN => "LPAREN"
  | .RPAREN => "RPAREN"
  | .EOF => "EOF"

/-- A scanned token: kind, exact matched text, and 1-based position
(Python dataclass `Token`). -/
structure Token where
  type : TokenType
  value : String
  line : Nat
  column : Nat
deriving DecidableEq, Repr

/-- Error raised by the scanner (Python class `LexerError`). -/
structure LexerError where
  message : String
  line : Nat
  column : Nat
deriving DecidableEq, Repr

/-- The human-readable rendering built in `LexerError.__init__`:
`f"Lexer Error at {line}:{column}: {message}"`. -/
def LexerError.render (e : LexerError) : String :=
  "Lexer Error at " ++ toString e.line ++ ":" ++ toString e.column ++ ": " ++ e.message

/-- Error raised by the parser (Python class `ParseError`). -/
structure ParseError where
  message : String
  token : Token
deriving DecidableEq, Repr

/-- The human-readable rendering built in `ParseError.__init__`:
`f"Parse Error at {token.line}:{token.column}: {message}"`. -/
def ParseError.render (e : ParseError) : String :=
  "Parse Error at " ++ toString e.token.line ++ ":" ++ toString e.token.column ++
    ": " ++ e.message

/-- Scanner state: remaining input, the character before the cursor (if
any), and the 1-based line/column of the cursor. -/
structure Lexer where
  source : List Char
  prev : Option Char
  line : Nat
  column : Nat
deriving DecidableEq, Repr

/-- `Lexer.advance`: move past one character, tracking line/column. -/
def Lexer.advance (st : Lexer) : Lexer :=
  match st.source with
  | [] => st
  | c :: rest =>
    if c = '\n' then { source := rest, prev := some c, line := st.line + 1, column := 1 }
    else { source := rest, prev := some c, line := st.line, column := st.column + 1 }

/-- Advancing `n` times (the Python `for _ in range(len(value)): self.advance()`). -/
def Lexer.advanceN (st : Lexer) : Nat → Lexer
  | 0 => st
  | n + 1 => st.advance.advanceN n

/-- The whitespace characters recognized by Python `str.isspace` at ASCII. -/
def isPySpace (c : Char) : Bool :=
  c = ' ' || c = '\t' || c = '\n' || c = '\x0b' || c = '\x0c' || c = '\r'

/-- The loop body of `Lexer.skip_whitespace`; the fuel argument is set to
the length of the remaining input, which is always enough because every
iteration consumes one character. -/
def Lexer.skip_whitespace_aux : Nat → Lexer → Lexer
  | 0, st => st
  | n + 1, st =>
    match st.source with
    | [] => st
    | c :: _ => if isPySpace c then Lexer.skip_whitespace_aux n st.advance else st

/-- `Lexer.skip_whitespace`: skip consecutive whitespace, updating position. -/
def Lexer.skip_whitespace (st : Lexer) : Lexer :=
  Lexer.skip_whitespace_aux st.source.length st

/-- A regex word character `\w` at ASCII: `[a-zA-Z0-9_]`. -/
def isWordChar (c : Char) : Bool := c.isAlpha || c.isDigit || c = '_'

/-- First character of an identifier: `[a-zA-Z_]`. -/
def isIdentStart (c : Char) : Bool := c.isAlpha || c = '_'

/-- The word boundary `\b` on the left of a word character: holds at the
start of input or after a non-word character. -/
def boundaryBefore : Option Char → Bool
  | none => true
  | some c => !isWordChar c

/-- The word boundary `\b` on the right of a word character: holds at the
end of input or before a non-word character. -/
def boundaryAfter : List Char → Bool
  | [] => true
  | c :: _ => !isWordChar c

/-- The pattern `r'\bint\b'` anchored at the cursor. -/
def matchIntKeyword (prev : Option Char) : List Char → Option (List Char)
  | 'i' :: 'n' :: 't' :: rest =>
    if boundaryBefore prev && boundaryAfter rest then some ['i', 'n', 't'] else none
  | _ => none

/-- The pattern `r'[a-zA-Z_][a-zA-Z0-9_]*'` anchored at the cursor
(greedy, as Python `re.match` is). -/
def matchIdentifier : List Char → Option (List Char)
  | c :: rest => if isIdentStart c then some (c :: rest.takeWhile isWordChar) else none
  | [] => none

/-- The pattern `r'\d+'` anchored at the cursor (greedy). -/
def matchNumber (s : List Char) : Option (List Char) :=
  match s.takeWhile Char.isDigit with
  | [] => none
  | c :: ds => some (c :: ds)

/-- A single-character pattern such as `r'\+'`. -/
def matchSingle (ch : Char) : List Char → Option (List Char)
  | c :: _ => if c = ch then some [c] else none
  | [] => none

/-- Emit one token recording the matched text and the pre-match position,
then advance the cursor past the matched text. -/
def Lexer.emit (st : Lexer) (tt : TokenType) (v : List Char) : Token × Lexer :=
  (⟨tt, String.mk v, st.line, st.column⟩, st.advanceN v.length)

/-- One round of the `for pattern, token_type in self.compiled_patterns`
loop: the patterns are tried in the fixed priority order of
`token_patterns` and the first match wins.  `none` means no pattern
matched at the cursor. -/
def Lexer.next_token (st : Lexer) : Option (Token × Lexer) :=
  match matchIntKeyword st.prev st.source with
  | some v => some (st.emit .INT v)
  | none =>
  match matchIdentifier st.source with
  | some v => some (st.emit .IDENTIFIER v)
  | none =>
  match matchNumber st.source with
  | some v => some (st.emit .NUMBER v)
  | none =>
  match matchSingle '+' st.source with
  | some v => some (st.emit .PLUS v)
  | none =>
  match matchSingle '-' st.source with
  | some v => some (st.emit .MINUS v)
  | none =>
  match matchSingle '*' st.source with
  | some v => some (st.emit .MULTIPLY v)
  | none =>
  match matchSingle '/' st.source with
  | some v => some (st.emit .DIVIDE v)
  | none =>
  match matchSingle '=' st.source with
  | some v => some (st.emit .ASSIGN v)
  | none =>
  match matchSingle ';' st.source with
  | some v => some (st.emit .SEMICOLON v)
  | none =>
  match matchSingle '(' st.source with
  | some v => some (st.emit .LPAREN v)
  | none =>
  match matchSingle ')' st.source with
  | some v => some (st.emit .RPAREN v)
  | none => none

/-- Result of scanning: the token list, a lexical error, or fuel
exhaustion (the latter is an artifact of the embedding and is proved
unreachable for the fuel used by `tokenize`). -/
inductive LexResult where
  | ok (tokens : List Token)
  | err (e : LexerError)
  | fuelOut
deriving DecidableEq, Repr

/-- An ASCII apostrophe, as used by the f-string quoting in the scanner's
error message. -/
def squote : String := String.singleton (Char.ofNat 39)

/-- The message `f"Unexpected character '{char}'"`. -/
def unexpectedCharMessage (c : Char) : String :=
  "Unexpected character " ++ squote ++ String.singleton c ++ squote

/-- The `while self.position < len(self.source)` loop of
`Lexer.tokenize`: skip whitespace, stop at end of input, otherwise match
one token or fail.  On normal exit exactly one `EOF` token with empty
text and the final cursor position is appended. -/
def Lexer.tokenize_loop : Nat → Lexer → List Token → LexResult
  | 0, _, _ => .fuelOut
  | fuel + 1, st, acc =>
    if st.source.isEmpty then
      .ok (acc ++ [⟨.EOF, "", st.line, st.column⟩])
    else
      let st1 := st.skip_whitespace
      if st1.source.isEmpty then
        .ok (acc ++ [⟨.EOF, "", st1.line, st1.column⟩])
      else
        match st1.next_token with
        | some (tok, st2) => Lexer.tokenize_loop fuel st2 (acc ++ [tok])
        | none =>
          .err ⟨unexpectedCharMessage (st1.source.headD ' '), st1.line, st1.column⟩

/-- `Lexer.tokenize`, starting from position 0, line 1, column 1.  Fuel
`length + 1` is enough because every loop iteration consumes at least one
character (proved below). -/
def tokenize (source_code : String) : LexResult :=
  Lexer.tokenize_loop (source_code.length + 1) ⟨source_code.data, none, 1, 1⟩ []

/-- The closed, tagged union of AST node variants (Python classes
`Program`, `VariableDeclaration`, `Assignment`, `BinaryOperation`,
`Number`, `Variable`; the field named `variable` in Python is called
`target` here because `variable` is a Lean keyword). -/
inductive ASTNode where
  | Program (statements : List ASTNode)
  | VariableDeclaration (var_type : String) (name : String)
  | Assignment (target : ASTNode) (expression : ASTNode)
  | BinaryOperation (left : ASTNode) (operator : String) (right : ASTNode)
  | Number (value : Nat)
  | Variable (name : String)

/-- Parser state: the token list from the lexer and the current cursor
(Python keeps `current_token` as a field; it always equals
`tokens[position]`). -/
structure Parser where
  tokens : List Token
  position : Nat
deriving DecidableEq, Repr

/-- Stand-in for Python's `None` current token; the parser is only ever
run on the scanner's output, which is never empty, so this default is
never read (proved via the cursor-in-range invariant). -/
def default_token : Token := ⟨.EOF, "", 0, 0⟩

/-- `self.current_token`, i.e. `self.tokens[self.position]`. -/
def Parser.current_token (st : Parser) : Token :=
  st.tokens.getD st.position default_token

/-- `Parser.advance`: move to the next token; a no-op at the last token. -/
def Parser.advance (st : Parser) : Parser :=
  if st.position < st.tokens.length - 1 then { st with position := st.position + 1 } else st

/-- `Parser.expect`: raise on a kind mismatch, otherwise return the
consumed token and advance. -/
def Parser.expect (st : Parser) (token_type : TokenType) : Except ParseError (Token × Parser) :=
  if st.current_token.type ≠ token_type then
    .error ⟨"Expected " ++ token_type.value ++ ", got " ++ st.current_token.type.value,
            st.current_token⟩
  else
    .ok (st.current_token, st.advance)

/-- Python `int()` as applied by `parse_factor`: the parser only ever
converts the text of a `NUMBER` token, which the number pattern
guarantees to be a non-empty digit string, so the conversion is the plain
base-10 digit fold. -/
def strToNat (s : String) : Nat :=
  s.data.foldl (fun acc c => 10 * acc + (c.toNat - 48)) 0

/-- Result of a fueled parsing function. -/
inductive PResult (α : Type) where
  | ok (val : α)
  | err (e : ParseError)
  | fuelOut

mutual

/-- `Parser.parse_expression`: `Term (('+' | '-') Term)*`, left-folded. -/
def Parser.parse_expression : Nat → Parser → PResult (ASTNode × Parser)
  | 0, _ => .fuelOut
  | fuel + 1, st =>
    match Parser.parse_term fuel st with
    | .ok (left, st1) => Parser.expression_loop fuel left st1
    | .err e => .err e
    | .fuelOut => .fuelOut

/-- The `while self.current_token.type in [PLUS, MINUS]` loop of
`parse_expression`. -/
def Parser.expression_loop : Nat → ASTNode → Parser → PResult (ASTNode × Parser)
  | 0, _, _ => .fuelOut
  | fuel + 1, left, st =>
    if st.current_token.type = .PLUS ∨ st.current_token.type = .MINUS then
      let operator := st.current_token.value
      let st1 := st.advance
      match Parser.parse_term fuel st1 with
      | .ok (right, st2) =>
        Parser.expression_loop fuel (.BinaryOperation left operator right) st2
      | .err e => .err e
      | .fuelOut => .fuelOut
    else
      .ok (left, st)

/-- `Parser.parse_term`: `Factor (('*' | '/') Factor)*`, left-folded. -/
def Parser.parse_term : Nat → Parser → PResult (ASTNode × Parser)
  | 0, _ => .fuelOut
  | fuel + 1, st =>
    match Parser.parse_factor fuel st with
    | .ok (left, st1) => Parser.term_loop fuel left st1
    | .err e => .err e
    | .fuelOut => .fuelOut

/-- The `while self.current_token.type in [MULTIPLY, DIVIDE]` loop of
`parse_term`. -/
def Parser.term_loop : Nat → ASTNode → Parser → PResult (ASTNode × Parser)
  | 0, _, _ => .fuelOut
  | fuel + 1, left, st =>
    if st.current_token.type = .MULTIPLY ∨ st.current_token.type = .DIVIDE then
      let operator := st.current_token.value
      let st1 := st.advance
      match Parser.parse_factor fuel st1 with
      | .ok (right, st2) =>
        Parser.term_loop fuel (.BinaryOperation left operator right) st2
      | .err e => .err e
      | .fuelOut => .fuelOut
    else
      .ok (left, st)

/-- `Parser.parse_factor`: a number, a variable, or a parenthesized
expression (whose inner node is returned unchanged). -/
def Parser.parse_factor : Nat → Parser → PResult (ASTNode × Parser)
  | 0, _ => .fuelOut
  | fuel + 1, st =>
    if st.current_token.type = .NUMBER then
      .ok (.Number (strToNat st.current_token.value), st.advance)
    else if st.current_token.type = .IDENTIFIER then
      .ok (.Variable st.current_token.value, st.advance)
    else if st.current_token.type = .LPAREN then
      match Parser.parse_expression fuel st.advance with
      | .ok (expression, st1) =>
        match st1.expect .RPAREN with
        | .ok (_, st2) => .ok (expression, st2)
        | .error e => .err e
      | .err e => .err e
      | .fuelOut => .fuelOut
    else
      .err ⟨"Unexpected token in expression: " ++ st.current_token.type.value,
            st.current_token⟩

end

/-- `Parser.parse_declaration`: `'int' IDENTIFIER ';'`. -/
def Parser.parse_declaration (st : Parser) : Except ParseError (ASTNode × Parser) :=
  match st.expect .INT with
  | .error e => .error e
  | .ok (_, st1) =>
    match st1.expect .IDENTIFIER with
    | .error e => .error e
    | .ok (name_token, st2) =>
      match st2.expect .SEMICOLON with
      | .error e => .error e
      | .ok (_, st3) => .ok (.VariableDeclaration "int" name_token.value, st3)

/-- `Parser.parse_assignment`: `IDENTIFIER '=' Expression ';'`. -/
def Parser.parse_assignment (fuel : Nat) (st : Parser) : PResult (ASTNode × Parser) :=
  match st.expect .IDENTIFIER with
  | .error e => .err e
  | .ok (name_token, st1) =>
    match st1.expect .ASSIGN with
    | .error e => .err e
    | .ok (_, st2) =>
      match Parser.parse_expression fuel st2 with
      | .err e => .err e
      | .fuelOut => .fuelOut
      | .ok (expression, st3) =>
        match st3.expect .SEMICOLON with
        | .error e => .err e
        | .ok (_, st4) => .ok (.Assignment (.Variable name_token.value) expression, st4)

/-- The `while self.current_token.type != TokenType.EOF` loop of
`Parser.parse`: dispatch on the statement-starting token. -/
def Parser.parse_loop : Nat → Parser → List ASTNode → PResult (ASTNode × Parser)
  | 0, _, _ => .fuelOut
  | fuel + 1, st, statements =>
    if st.current_token.type = .EOF then
      .ok (.Program statements, st)
    else if st.current_token.type = .INT then
      match st.parse_declaration with
      | .error e => .err e
      | .ok (stmt, st1) => Parser.parse_loop fuel st1 (statements ++ [stmt])
    else if st.current_token.type = .IDENTIFIER then
      match Parser.parse_assignment fuel st with
      | .err e => .err e
      | .fuelOut => .fuelOut
      | .ok (stmt, st1) => Parser.parse_loop fuel st1 (statements ++ [stmt])
    else
      .err ⟨"Unexpected token " ++ st.current_token.type.value, st.current_token⟩

/-- `Parser.parse` on a fresh parser over the given tokens. -/
def Parser.parse (fuel : Nat) (tokens : List Token) : PResult (ASTNode × Parser) :=
  Parser.parse_loop fuel ⟨tokens, 0⟩ []

/-- Result of the whole pipeline (`parse_mini_c`). -/
inductive PipeResult where
  | ok (ast : ASTNode)
  | lexFail (e : LexerError)
  | parseFail (e : ParseError)
  | fuelOut

/-- `parse_mini_c`: scan then parse, propagating either error unchanged.
The parser fuel `3 * n + 1` is proved sufficient for every token sequence
the scanner can produce. -/
def parse_mini_c (source_code : String) : PipeResult :=
  match tokenize source_code with
  | .err e => .lexFail e
  | .fuelOut => .fuelOut
  | .ok tokens =>
    match Parser.parse (3 * tokens.length + 1) tokens with
    | .ok (ast, _) => .ok ast
    | .err e => .parseFail e
    | .fuelOut => .fuelOut

/-- The connector symbol chosen in `_print_node`. -/
def connector (is_last : Bool) : String := if is_last then "└── " else "├── "

/-- The prefix extension for child nodes in `_print_node`. -/
def child_extension (is_last : Bool) : String := if is_last then "    " else "│   "

mutual

/-- `ASTPrettyPrinter._print_node`: the lines appended to `self.output`
for one node (the Python parameter `prefix` is called `pref` here). -/
def print_node : ASTNode → String → Bool → List String
  | .Program statements, pref, is_last =>
    (pref ++ "Program") ::
      print_statements statements (pref ++ child_extension is_last)
  | .VariableDeclaration var_type name, pref, is_last =>
    [pref ++ connector is_last ++ "VariableDeclaration (type: " ++ var_type ++
      ", name: " ++ name ++ ")"]
  | .Assignment target expression, pref, is_last =>
    (pref ++ connector is_last ++ "Assignment") ::
      (print_node target (pref ++ child_extension is_last) false ++
       print_node expression (pref ++ child_extension is_last) true)
  | .BinaryOperation left operator right, pref, is_last =>
    (pref ++ connector is_last ++ "BinaryOperation (operator: " ++ operator ++ ")") ::
      (print_node left (pref ++ child_extension is_last) false ++
       print_node right (pref ++ child_extension is_last) true)
  | .Number value, pref, is_last =>
    [pref ++ connector is_last ++ "Number (value: " ++ toString value ++ ")"]
  | .Variable name, pref, is_last =>
    [pref ++ connector is_last ++ "Variable (name: " ++ name ++ ")"]

/-- The `for i, statement in enumerate(node.statements)` loop of the
`Program` branch: only the final statement is marked last. -/
def print_statements : List ASTNode → String → List String
  | [], _ => []
  | [s], pref => print_node s pref true
  | s :: s2 :: rest, pref =>
    print_node s pref false ++ print_statements (s2 :: rest) pref

end

/-- The printer object; its only state is the output line buffer. -/
structure ASTPrettyPrinter where
  output : List String
deriving DecidableEq, Repr

/-- `ASTPrettyPrinter.print_ast`: reset the output buffer, print the tree
from the root with an empty prefix, and join the lines with newlines. -/
def ASTPrettyPrinter.print_ast (_p : ASTPrettyPrinter) (node : ASTNode) :
    String × ASTPrettyPrinter :=
  let out := print_node node "" true
  (String.intercalate "\n" out, ⟨out⟩)

/-! ### Scanner lemmas: cursor coherence and token quality -/

/-- One step of line/column tracking, as performed by `Lexer.advance`. -/
def stepPos : Nat × Nat → Char → Nat × Nat
  | (l, c), ch => if ch = '\n' then (l + 1, 1) else (l, c + 1)

/-- The cursor position after consuming a character list, starting from
line 1, column 1. -/
def posFold (cs : List Char) : Nat × Nat := cs.foldl stepPos (1, 1)

/-- Cursor coherence: the scanner state is reachable from `src`, its
remaining input is a suffix of `src`, and its line/column are exactly the
position after consuming the corresponding prefix. -/
def Coh (src : List Char) (st : Lexer) : Prop :=
  ∃ pre, src = pre ++ st.source ∧ (st.line, st.column) = pre.foldl stepPos (1, 1)

theorem stepPos_pos (p : Nat × Nat) (ch : Char) (h1 : 1 ≤ p.1) (h2 : 1 ≤ p.2) :
    1 ≤ (stepPos p ch).1 ∧ 1 ≤ (stepPos p ch).2 := by
  obtain ⟨l, c⟩ := p
  simp only [stepPos]
  split <;> simp_all

theorem foldl_stepPos_pos (cs : List Char) :
    ∀ p : Nat × Nat, 1 ≤ p.1 → 1 ≤ p.2 →
      1 ≤ (cs.foldl stepPos p).1 ∧ 1 ≤ (cs.foldl stepPos p).2 := by
  induction cs with
  | nil => intro p h1 h2; exact ⟨h1, h2⟩
  | cons c cs ih =>
    intro p h1 h2
    have := stepPos_pos p c h1 h2
    simpa using ih (stepPos p c) this.1 this.2

theorem posFold_pos (cs : List Char) : 1 ≤ (posFold cs).1 ∧ 1 ≤ (posFold cs).2 :=
  foldl_stepPos_pos cs (1, 1) le_rfl le_rfl

theorem Lexer.advance_source (st : Lexer) : st.advance.source = st.source.tail := by
  cases hs : st.source with
  | nil => simp [Lexer.advance, hs]
  | cons c rest =>
    simp only [Lexer.advance, hs]
    split <;> rfl

theorem Lexer.advance_coh {src : List Char} {st : Lexer} (h : Coh src st) :
    Coh src st.advance := by
  obtain ⟨pre, hsrc, hpos⟩ := h
  cases hs : st.source with
  | nil =>
    refine ⟨pre, ?_, ?_⟩
    · simp only [Lexer.advance, hs]
      rw [hsrc, hs]
    · simpa [Lexer.advance, hs] using hpos
  | cons c rest =>
    refine ⟨pre ++ [c], ?_, ?_⟩
    · rw [Lexer.advance_source, hsrc, hs]
      simp
    · have hfold : (pre ++ [c]).foldl stepPos (1, 1) = stepPos (pre.foldl stepPos (1, 1)) c := by
        simp [List.foldl_append]
      rw [hfold, ← hpos]
      simp only [Lexer.advance, hs, stepPos]
      split <;> rfl

theorem Lexer.advanceN_source (st : Lexer) (n : Nat) :
    (st.advanceN n).source = st.source.drop n := by
  induction n generalizing st with
  | zero => simp [Lexer.advanceN]
  | succ n ih =>
    rw [Lexer.advanceN, ih, Lexer.advance_source, ← List.drop_one, List.drop_drop,
      Nat.add_comm]

theorem Lexer.advanceN_coh {src : List Char} {st : Lexer} (n : Nat) (h : Coh src st) :
    Coh src (st.advanceN n) := by
  induction n generalizing st with
  | zero => exact h
  | succ n ih => exact ih (Lexer.advance_coh h)

theorem Lexer.skip_whitespace_aux_coh {src : List Char} :
    ∀ (n : Nat) (st : Lexer), Coh src st → Coh src (Lexer.skip_whitespace_aux n st) := by
  intro n
  induction n with
  | zero => intro st h; exact h
  | succ n ih =>
    intro st h
    rw [Lexer.skip_whitespace_aux]
    cases hs : st.source with
    | nil => exact h
    | cons c rest =>
      show Coh src (if isPySpace c = true then Lexer.skip_whitespace_aux n st.advance else st)
      by_cases hsp : isPySpace c = true
      · simpa [hsp] using ih _ (Lexer.advance_coh h)
      · simpa [hsp] using h

theorem Lexer.skip_whitespace_coh {src : List Char} {st : Lexer} (h : Coh src st) :
    Coh src st.skip_whitespace :=
  Lexer.skip_whitespace_aux_coh _ st h

theorem Lexer.skip_whitespace_aux_length :
    ∀ (n : Nat) (st : Lexer),
      (Lexer.skip_whitespace_aux n st).source.length ≤ st.source.length := by
  intro n
  induction n with
  | zero => intro st; exact le_rfl
  | succ n ih =>
    intro st
    rw [Lexer.skip_whitespace_aux]
    cases hs : st.source with
    | nil => simp [hs]
    | cons c rest =>
      show (if isPySpace c = true then Lexer.skip_whitespace_aux n st.advance else st).source.length ≤ _
      by_cases hsp : isPySpace c = true
      · simp only [hsp, if_true]
        refine le_trans (ih st.advance) ?_
        rw [Lexer.advance_source, hs]
        simp
      · simp [hsp, hs]

theorem Lexer.skip_whitespace_length (st : Lexer) :
    st.skip_whitespace.source.length ≤ st.source.length :=
  Lexer.skip_whitespace_aux_length _ st

/-- Well-formedness of a scanned token: 1-based position and the exact
literal text for the four operator kinds. -/
def TokenOK (t : Token) : Prop :=
  1 ≤ t.line ∧ 1 ≤ t.column ∧
  (t.type = .PLUS → t.value = "+") ∧ (t.type = .MINUS → t.value = "-") ∧
  (t.type = .MULTIPLY → t.value = "*") ∧ (t.type = .DIVIDE → t.value = "/")

instance (t : Token) : Decidable (TokenOK t) := by
  unfold TokenOK
  infer_instance

theorem matchIntKeyword_some {prev : Option Char} {s v : List Char}
    (h : matchIntKeyword prev s = some v) :
    v = ['i', 'n', 't'] ∧ ∃ rest, s = 'i' :: 'n' :: 't' :: rest := by
  rw [matchIntKeyword.eq_def] at h
  split at h
  · split at h
    · exact ⟨by simpa using h.symm, _, rfl⟩
    · exact absurd h (by simp)
  · exact absurd h (by simp)

theorem matchIdentifier_some {s v : List Char} (h : matchIdentifier s = some v) :
    ∃ c rest, s = c :: rest ∧ v = c :: rest.takeWhile isWordChar := by
  rw [matchIdentifier.eq_def] at h
  split at h
  · split at h
    · exact ⟨_, _, rfl, by simpa using h.symm⟩
    · exact absurd h (by simp)
  · exact absurd h (by simp)

theorem matchNumber_some {s v : List Char} (h : matchNumber s = some v) :
    v = s.takeWhile Char.isDigit ∧ v ≠ [] ∧ s ≠ [] := by
  rw [matchNumber] at h
  split at h
  · exact absurd h (by simp)
  · rename_i c ds hds
    injection h with h2
    subst h2
    refine ⟨by rw [hds], by simp, ?_⟩
    intro hnil
    rw [hnil] at hds
    simp at hds

theorem matchSingle_some {ch : Char} {s v : List Char} (h : matchSingle ch s = some v) :
    ∃ rest, s = ch :: rest ∧ v = [ch] := by
  rw [matchSingle.eq_def] at h
  split at h
  · rename_i c rest
    split at h
    · rename_i hc
      subst hc
      exact ⟨rest, rfl, by simpa using h.symm⟩
    · exact absurd h (by simp)
  · exact absurd h (by simp)

theorem List.takeWhile_length_le {p : Char → Bool} (s : List Char) :
    (s.takeWhile p).length ≤ s.length := by
  induction s with
  | nil => simp
  | cons c cs ih =>
    rw [List.takeWhile]
    split
    · simpa using ih
    · simp

theorem Lexer.next_token_branch {st : Lexer} {tt : TokenType} {v : List Char}
    {tok : Token} {st2 : Lexer}
    (h : st.emit tt v = (tok, st2)) (hv : v ≠ []) (hs : st.source ≠ [])
    (htt : tt ≠ .EOF)
    (hplus : tt = .PLUS → String.mk v = "+")
    (hminus : tt = .MINUS → String.mk v = "-")
    (hmul : tt = .MULTIPLY → String.mk v = "*")
    (hdiv : tt = .DIVIDE → String.mk v = "/") :
    st2.source.length < st.source.length ∧
    tok.line = st.line ∧ tok.column = st.column ∧
    tok.type ≠ .EOF ∧
    (tok.type = .PLUS → tok.value = "+") ∧
    (tok.type = .MINUS → tok.value = "-") ∧
    (tok.type = .MULTIPLY → tok.value = "*") ∧
    (tok.type = .DIVIDE → tok.value = "/") ∧
    (∀ src, Coh src st → Coh src st2) := by
  rw [Lexer.emit] at h
  injection h with h1 h2
  subst h1
  subst h2
  refine ⟨?_, rfl, rfl, htt, hplus, hminus, hmul, hdiv,
    fun src hc => Lexer.advanceN_coh _ hc⟩
  rw [Lexer.advanceN_source, List.length_drop]
  have hv1 : 0 < v.length := List.length_pos.mpr hv
  have hs1 : 0 < st.source.length := List.length_pos.mpr hs
  omega

theorem Lexer.next_token_spec {st : Lexer} {tok : Token} {st2 : Lexer}
    (h : st.next_token = some (tok, st2)) :
    st2.source.length < st.source.length ∧
    tok.line = st.line ∧ tok.column = st.column ∧
    tok.type ≠ .EOF ∧
    (tok.type = .PLUS → tok.value = "+") ∧
    (tok.type = .MINUS → tok.value = "-") ∧
    (tok.type = .MULTIPLY → tok.value = "*") ∧
    (tok.type = .DIVIDE → tok.value = "/") ∧
    (∀ src, Coh src st → Coh src st2) := by
  rw [Lexer.next_token] at h
  rcases hk1 : matchIntKeyword st.prev st.source with _ | v <;> rw [hk1] at h
  case some =>
    obtain ⟨rfl, rest, hrest⟩ := matchIntKeyword_some hk1
    simp only [] at h
    injection h with h1
    exact Lexer.next_token_branch h1 (by simp) (by rw [hrest]; simp) (by simp)
      (by simp) (by simp) (by simp) (by simp)
  rcases hk2 : matchIdentifier st.source with _ | v <;> rw [hk2] at h
  case some =>
    obtain ⟨c, rest, hrest, rfl⟩ := matchIdentifier_some hk2
    injection h with h1
    exact Lexer.next_token_branch h1 (by simp) (by rw [hrest]; simp) (by simp)
      (by simp) (by simp) (by simp) (by simp)
  rcases hk3 : matchNumber st.source with _ | v <;> rw [hk3] at h
  case some =>
    obtain ⟨hvtw, hvne, hsne⟩ := matchNumber_some hk3
    injection h with h1
    exact Lexer.next_token_branch h1 hvne hsne (by simp)
      (by simp) (by simp) (by simp) (by simp)
  rcases hk4 : matchSingle '+' st.source with _ | v <;> rw [hk4] at h
  case some =>
    obtain ⟨rest, hrest, rfl⟩ := matchSingle_some hk4
    injection h with h1
    exact Lexer.next_token_branch h1 (by simp) (by rw [hrest]; simp) (by simp)
      (fun _ => rfl) (by simp) (by simp) (by simp)
  rcases hk5 : matchSingle '-' st.source with _ | v <;> rw [hk5] at h
  case some =>
    obtain ⟨rest, hrest, rfl⟩ := matchSingle_some hk5
    injection h with h1
    exact Lexer.next_token_branch h1 (by simp) (by rw [hrest]; simp) (by simp)
      (by simp) (fun _ => rfl) (by simp) (by simp)
  rcases hk6 : matchSingle '*' st.source with _ | v <;> rw [hk6] at h
  case some =>
    obtain ⟨rest, hrest, rfl⟩ := matchSingle_some hk6
    injection h with h1
    exact Lexer.next_token_branch h1 (by simp) (by rw [hrest]; simp) (by simp)
      (by simp) (by simp) (fun _ => rfl) (by simp)
  rcases hk7 : matchSingle '/' st.source with _ | v <;> rw [hk7] at h
  case some =>
    obtain ⟨rest, hrest, rfl⟩ := matchSingle_some hk7
    injection h with h1
    exact Lexer.next_token_branch h1 (by simp) (by rw [hrest]; simp) (by simp)
      (by simp) (by simp) (by simp) (fun _ => rfl)
  rcases hk8 : matchSingle '=' st.source with _ | v <;> rw [hk8] at h
  case some =>
    obtain ⟨rest, hrest, rfl⟩ := matchSingle_some hk8
    injection h with h1
    exact Lexer.next_token_branch h1 (by simp) (by rw [hrest]; simp) (by simp)
      (by simp) (by simp) (by simp) (by simp)
  rcases hk9 : matchSingle ';' st.source with _ | v <;> rw [hk9] at h
  case some =>
    obtain ⟨rest, hrest, rfl⟩ := matchSingle_some hk9
    injection h with h1
    exact Lexer.next_token_branch h1 (by simp) (by rw [hrest]; simp) (by simp)
      (by simp) (by simp) (by simp) (by simp)
  rcases hk10 : matchSingle '(' st.source with _ | v <;> rw [hk10] at h
  case some =>
    obtain ⟨rest, hrest, rfl⟩ := matchSingle_some hk10
    injection h with h1
    exact Lexer.next_token_branch h1 (by simp) (by rw [hrest]; simp) (by simp)
      (by simp) (by simp) (by simp) (by simp)
  rcases hk11 : matchSingle ')' st.source with _ | v <;> rw [hk11] at h
  case some =>
    obtain ⟨rest, hrest, rfl⟩ := matchSingle_some hk11
    injection h with h1
    exact Lexer.next_token_branch h1 (by simp) (by rw [hrest]; simp) (by simp)
      (by simp) (by simp) (by simp) (by simp)
  exact absurd h (by simp)

/-- The `EOF` token appended on normal exit, for a given whole input. -/
def eofTokenFor (src : List Char) : Token :=
  ⟨.EOF, "", (posFold src).1, (posFold src).2⟩

theorem Lexer.tokenize_loop_spec (src : List Char) :
    ∀ (fuel : Nat) (st : Lexer) (acc : List Token),
      Coh src st → st.source.length < fuel →
      (Lexer.tokenize_loop fuel st acc ≠ .fuelOut) ∧
      (∀ ts, Lexer.tokenize_loop fuel st acc = .ok ts →
        ∃ rest, ts = acc ++ rest ++ [eofTokenFor src] ∧
          ∀ t ∈ rest, TokenOK t ∧ t.type ≠ .EOF) ∧
      (∀ e, Lexer.tokenize_loop fuel st acc = .err e →
        ∃ pre c tl, src = pre ++ c :: tl ∧
          (e.line, e.column) = posFold pre ∧
          e.message = unexpectedCharMessage c) := by
  intro fuel
  induction fuel with
  | zero => intro st acc _ hfuel; omega
  | succ n ih =>
    intro st acc hcoh hfuel
    rw [Lexer.tokenize_loop]
    by_cases hemp : st.source.isEmpty = true
    · rw [if_pos hemp]
      refine ⟨by simp, ?_, by simp⟩
      intro ts hts
      injection hts with hts
      obtain ⟨pre, hsrc, hpos⟩ := hcoh
      have hnil : st.source = [] := by simpa [List.isEmpty_iff] using hemp
      have hpre : pre = src := by rw [hsrc, hnil, List.append_nil]
      refine ⟨[], ?_, by simp⟩
      rw [← hts]
      have h3 : posFold src = (st.line, st.column) := by
        rw [← hpre, posFold, ← hpos]
      have h4 : eofTokenFor src = ⟨.EOF, "", st.line, st.column⟩ := by
        rw [eofTokenFor, h3]
      rw [h4]
      simp
    · rw [if_neg hemp]
      have hcoh1 : Coh src st.skip_whitespace := Lexer.skip_whitespace_coh hcoh
      have hlen1 : st.skip_whitespace.source.length ≤ st.source.length :=
        Lexer.skip_whitespace_length st
      by_cases hemp1 : st.skip_whitespace.source.isEmpty = true
      · rw [if_pos hemp1]
        refine ⟨by simp, ?_, by simp⟩
        intro ts hts
        injection hts with hts
        obtain ⟨pre, hsrc, hpos⟩ := hcoh1
        have hnil : st.skip_whitespace.source = [] := by
          simpa [List.isEmpty_iff] using hemp1
        have hpre : pre = src := by rw [hsrc, hnil, List.append_nil]
        refine ⟨[], ?_, by simp⟩
        rw [← hts]
        have h3 : posFold src = (st.skip_whitespace.line, st.skip_whitespace.column) := by
          rw [← hpre, posFold, ← hpos]
        have h4 : eofTokenFor src =
            ⟨.EOF, "", st.skip_whitespace.line, st.skip_whitespace.column⟩ := by
          rw [eofTokenFor, h3]
        rw [h4]
        simp
      · rw [if_neg hemp1]
        rcases hnt : st.skip_whitespace.next_token with _ | p
        · refine ⟨by simp, by simp, ?_⟩
          intro e he
          injection he with he
          obtain ⟨pre, hsrc, hpos⟩ := hcoh1
          have hne : st.skip_whitespace.source ≠ [] := by
            simpa [List.isEmpty_iff] using hemp1
          rcases hsw : st.skip_whitespace.source with _ | ⟨c, tl⟩
          · exact absurd hsw hne
          · refine ⟨pre, c, tl, by rw [hsrc, hsw], ?_, ?_⟩
            · rw [← he]
              simp only [posFold, ← hpos]
            · rw [← he, hsw]
              simp
        · obtain ⟨tok, st2⟩ := p
          show (Lexer.tokenize_loop n st2 (acc ++ [tok]) ≠ .fuelOut) ∧
            (∀ ts, Lexer.tokenize_loop n st2 (acc ++ [tok]) = .ok ts →
              ∃ rest, ts = acc ++ rest ++ [eofTokenFor src] ∧
                ∀ t ∈ rest, TokenOK t ∧ t.type ≠ .EOF) ∧
            (∀ e, Lexer.tokenize_loop n st2 (acc ++ [tok]) = .err e →
              ∃ pre c tl, src = pre ++ c :: tl ∧
                (e.line, e.column) = posFold pre ∧
                e.message = unexpectedCharMessage c)
          obtain ⟨hlt, htl, htc, hteof, hp, hm, hmu, hd, hcohf⟩ :=
            Lexer.next_token_spec hnt
          have hcoh2 : Coh src st2 := hcohf src hcoh1
          have hfuel2 : st2.source.length < n := by omega
          obtain ⟨ihfuel, ihok, iherr⟩ := ih st2 (acc ++ [tok]) hcoh2 hfuel2
          refine ⟨ihfuel, ?_, iherr⟩
          intro ts hts
          obtain ⟨rest, hrest, hrestok⟩ := ihok ts hts
          refine ⟨tok :: rest, by rw [hrest]; simp, ?_⟩
          intro t ht
          rcases List.mem_cons.mp ht with rfl | ht2
          · obtain ⟨pre, hsrc, hpos⟩ := hcoh1
            have hp1 : 1 ≤ (pre.foldl stepPos (1, 1)).1 :=
              (foldl_stepPos_pos pre (1, 1) le_rfl le_rfl).1
            have hp2 : 1 ≤ (pre.foldl stepPos (1, 1)).2 :=
              (foldl_stepPos_pos pre (1, 1) le_rfl le_rfl).2
            have hl1 : t.line = (pre.foldl stepPos (1, 1)).1 := by
              rw [htl, ← hpos]
            have hc1 : t.column = (pre.foldl stepPos (1, 1)).2 := by
              rw [htc, ← hpos]
            exact ⟨⟨by omega, by omega, hp, hm, hmu, hd⟩, hteof⟩
          · exact hrestok t ht2

theorem Coh.initial (src : List Char) : Coh src ⟨src, none, 1, 1⟩ :=
  ⟨[], rfl, rfl⟩

theorem tokenize_fuel_ok (s : String) : s.data.length < s.length + 1 := by
  have h : s.length = s.data.length := rfl
  omega

theorem tokenize_ne_fuelOut (s : String) : tokenize s ≠ .fuelOut :=
  (Lexer.tokenize_loop_spec s.data (s.length + 1) ⟨s.data, none, 1, 1⟩ []
    (Coh.initial s.data) (tokenize_fuel_ok s)).1

theorem tokenize_ok_spec {s : String} {ts : List Token} (h : tokenize s = .ok ts) :
    ∃ rest, ts = rest ++ [eofTokenFor s.data] ∧
      ∀ t ∈ rest, TokenOK t ∧ t.type ≠ .EOF := by
  obtain ⟨rest, hrest, hok⟩ :=
    (Lexer.tokenize_loop_spec s.data (s.length + 1) ⟨s.data, none, 1, 1⟩ []
      (Coh.initial s.data) (tokenize_fuel_ok s)).2.1 ts h
  exact ⟨rest, by simpa using hrest, hok⟩

theorem tokenize_err_spec {s : String} {e : LexerError} (h : tokenize s = .err e) :
    ∃ pre c tl, s.data = pre ++ c :: tl ∧
      (e.line, e.column) = posFold pre ∧
      e.message = unexpectedCharMessage c :=
  (Lexer.tokenize_loop_spec s.data (s.length + 1) ⟨s.data, none, 1, 1⟩ []
    (Coh.initial s.data) (tokenize_fuel_ok s)).2.2 e h

theorem eofTokenFor_ok (src : List Char) : TokenOK (eofTokenFor src) :=
  ⟨(posFold_pos src).1, (posFold_pos src).2,
    by simp [eofTokenFor], by simp [eofTokenFor], by simp [eofTokenFor],
    by simp [eofTokenFor]⟩

theorem tokenize_tokens_ok {s : String} {ts : List Token} (h : tokenize s = .ok ts) :
    ∀ t ∈ ts, TokenOK t := by
  obtain ⟨rest, rfl, hok⟩ := tokenize_ok_spec h
  intro t ht
  rcases List.mem_append.mp ht with h1 | h2
  · exact (hok t h1).1
  · rw [List.mem_singleton.mp h2]
    exact eofTokenFor_ok s.data

theorem tokenize_ne_nil {s : String} {ts : List Token} (h : tokenize s = .ok ts) :
    ts ≠ [] := by
  obtain ⟨rest, rfl, _⟩ := tokenize_ok_spec h
  simp

theorem tokenize_lastEOF {s : String} {ts : List Token} (h : tokenize s = .ok ts) :
    ∃ t, ts.getLast? = some t ∧ t.type = .EOF := by
  obtain ⟨rest, rfl, _⟩ := tokenize_ok_spec h
  exact ⟨eofTokenFor s.data, by simp, rfl⟩

/-! ### Parser lemmas: invariant, progress, and fuel sufficiency -/

/-- The token list ends with an `EOF` token (true of every scanner
output). -/
def lastEOF (tokens : List Token) : Prop :=
  ∃ t, tokens.getLast? = some t ∧ t.type = .EOF

/-- Parser invariant: the cursor is in range and the token list ends with
`EOF`. -/
def PInv (st : Parser) : Prop :=
  st.position < st.tokens.length ∧ lastEOF st.tokens

theorem Parser.advance_tokens (st : Parser) : st.advance.tokens = st.tokens := by
  rw [Parser.advance]
  split <;> rfl

theorem Parser.advance_pos_lt {st : Parser} (h : st.position < st.tokens.length) :
    st.advance.position < st.tokens.length := by
  rw [Parser.advance]
  split
  · simp only
    omega
  · exact h

theorem Parser.advance_pos_ge (st : Parser) : st.position ≤ st.advance.position := by
  rw [Parser.advance]
  split
  · simp only
    omega
  · exact le_rfl

theorem Parser.advance_pos_strict {st : Parser} (h : st.position < st.tokens.length - 1) :
    st.advance.position = st.position + 1 := by
  rw [Parser.advance, if_pos h]

theorem Parser.advance_noop {st : Parser} (h : ¬ st.position < st.tokens.length - 1) :
    st.advance = st := by
  rw [Parser.advance, if_neg h]

theorem Parser.advance_inv {st : Parser} (h : PInv st) : PInv st.advance := by
  refine ⟨?_, ?_⟩
  · rw [Parser.advance_tokens]
    exact Parser.advance_pos_lt h.1
  · rw [Parser.advance_tokens]
    exact h.2

theorem Parser.current_mem {st : Parser} (h : st.position < st.tokens.length) :
    st.current_token ∈ st.tokens := by
  rw [Parser.current_token, List.getD_eq_getElem?_getD, List.getElem?_eq_getElem h]
  exact List.getElem_mem h

theorem Parser.current_at_last {st : Parser} (hinv : PInv st)
    (h : ¬ st.position < st.tokens.length - 1) : st.current_token.type = .EOF := by
  obtain ⟨hlt, t, hlast, heof⟩ := hinv
  have hpos : st.position = st.tokens.length - 1 := by omega
  rw [List.getLast?_eq_getElem?, List.getElem?_eq_getElem (by omega)] at hlast
  injection hlast with hlast
  rw [Parser.current_token, List.getD_eq_getElem?_getD, List.getElem?_eq_getElem hlt]
  have : st.tokens[st.position] = st.tokens[st.tokens.length - 1] := by
    congr 1
  rw [this, hlast]
  simpa using heof

theorem Parser.current_ne_eof_lt {st : Parser} (hinv : PInv st)
    (h : st.current_token.type ≠ .EOF) : st.position < st.tokens.length - 1 := by
  by_contra hc
  exact h (Parser.current_at_last hinv hc)

theorem Parser.expect_ok_dest {st : Parser} {tt : TokenType} {tok : Token} {st1 : Parser}
    (h : st.expect tt = .ok (tok, st1)) :
    st.current_token.type = tt ∧ tok = st.current_token ∧ st1 = st.advance := by
  rw [Parser.expect] at h
  split at h
  · exact absurd h (by simp)
  · rename_i hc
    injection h with h
    injection h with h1 h2
    exact ⟨by simpa using hc, h1.symm, h2.symm⟩

theorem Parser.expect_err_dest {st : Parser} {tt : TokenType} {e : ParseError}
    (h : st.expect tt = .error e) :
    st.current_token.type ≠ tt ∧
    e = ⟨"Expected " ++ tt.value ++ ", got " ++ st.current_token.type.value,
          st.current_token⟩ := by
  rw [Parser.expect] at h
  split at h
  · rename_i hc
    injection h with h
    exact ⟨hc, h.symm⟩
  · exact absurd h (by simp)

/-- `expect` of a kind other than `EOF`, under the invariant: it consumes
one token and strictly advances the cursor. -/
theorem Parser.expect_ok_strict {st : Parser} {tt : TokenType} {tok : Token} {st1 : Parser}
    (hinv : PInv st) (htt : tt ≠ .EOF) (h : st.expect tt = .ok (tok, st1)) :
    st1.tokens = st.tokens ∧ st1.position = st.position + 1 ∧ PInv st1 := by
  obtain ⟨hc, _, rfl⟩ := Parser.expect_ok_dest h
  have hne : st.current_token.type ≠ .EOF := by rw [hc]; exact htt
  have hlt := Parser.current_ne_eof_lt hinv hne
  exact ⟨Parser.advance_tokens st, Parser.advance_pos_strict hlt, Parser.advance_inv hinv⟩

/-- Fuel sufficiency statement for `parse_expression`. -/
def ExprFuelOK (fuel : Nat) : Prop :=
  ∀ st : Parser, PInv st → 3 * (st.tokens.length - st.position) ≤ fuel →
    Parser.parse_expression fuel st ≠ .fuelOut ∧
    ∀ v st1, Parser.parse_expression fuel st = .ok (v, st1) →
      st1.tokens = st.tokens ∧ st.position < st1.position ∧ PInv st1

/-- Fuel sufficiency statement for `expression_loop`. -/
def ExprLoopFuelOK (fuel : Nat) : Prop :=
  ∀ (left : ASTNode) (st : Parser), PInv st →
    3 * (st.tokens.length - st.position) ≤ fuel + 2 →
    Parser.expression_loop fuel left st ≠ .fuelOut ∧
    ∀ v st1, Parser.expression_loop fuel left st = .ok (v, st1) →
      st1.tokens = st.tokens ∧ st.position ≤ st1.position ∧ PInv st1

/-- Fuel sufficiency statement for `parse_term`. -/
def TermFuelOK (fuel : Nat) : Prop :=
  ∀ st : Parser, PInv st → 3 * (st.tokens.length - st.position) ≤ fuel + 1 →
    Parser.parse_term fuel st ≠ .fuelOut ∧
    ∀ v st1, Parser.parse_term fuel st = .ok (v, st1) →
      st1.tokens = st.tokens ∧ st.position < st1.position ∧ PInv st1

/-- Fuel sufficiency statement for `term_loop`. -/
def TermLoopFuelOK (fuel : Nat) : Prop :=
  ∀ (left : ASTNode) (st : Parser), PInv st →
    3 * (st.tokens.length - st.position) ≤ fuel + 2 →
    Parser.term_loop fuel left st ≠ .fuelOut ∧
    ∀ v st1, Parser.term_loop fuel left st = .ok (v, st1) →
      st1.tokens = st.tokens ∧ st.position ≤ st1.position ∧ PInv st1

/-- Fuel sufficiency statement for `parse_factor`. -/
def FactorFuelOK (fuel : Nat) : Prop :=
  ∀ st : Parser, PInv st → 3 * (st.tokens.length - st.position) ≤ fuel + 2 →
    Parser.parse_factor fuel st ≠ .fuelOut ∧
    ∀ v st1, Parser.parse_factor fuel st = .ok (v, st1) →
      st1.tokens = st.tokens ∧ st.position < st1.position ∧ PInv st1

theorem parser_fuel_induction :
    ∀ fuel, ExprFuelOK fuel ∧ ExprLoopFuelOK fuel ∧ TermFuelOK fuel ∧
      TermLoopFuelOK fuel ∧ FactorFuelOK fuel := by
  intro fuel
  induction fuel with
  | zero =>
    refine ⟨?_, ?_, ?_, ?_, ?_⟩
    · intro st hinv hle
      exfalso
      have := hinv.1
      omega
    · intro left st hinv hle
      exfalso
      have := hinv.1
      omega
    · intro st hinv hle
      exfalso
      have := hinv.1
      omega
    · intro left st hinv hle
      exfalso
      have := hinv.1
      omega
    · intro st hinv hle
      exfalso
      have := hinv.1
      omega
  | succ n ih =>
    obtain ⟨ihE, ihEL, ihT, ihTL, ihF⟩ := ih
    refine ⟨?_, ?_, ?_, ?_, ?_⟩
    -- parse_expression
    · intro st hinv hle
      rw [Parser.parse_expression]
      cases hT : Parser.parse_term n st with
      | ok p =>
        obtain ⟨left, st1⟩ := p
        obtain ⟨htok1, hpos1, hinv1⟩ := (ihT st hinv (by omega)).2 left st1 hT
        have hb : 3 * (st1.tokens.length - st1.position) ≤ n + 2 := by
          rw [htok1]
          omega
        obtain ⟨hne, hok⟩ := ihEL left st1 hinv1 hb
        refine ⟨hne, ?_⟩
        intro v st2 hv
        obtain ⟨htok2, hpos2, hinv2⟩ := hok v st2 hv
        exact ⟨htok2.trans htok1, by omega, hinv2⟩
      | err e => exact ⟨by simp [hT], by simp [hT]⟩
      | fuelOut => exact absurd hT (ihT st hinv (by omega)).1
    -- expression_loop
    · intro left st hinv hle
      rw [Parser.expression_loop]
      by_cases hop : st.current_token.type = .PLUS ∨ st.current_token.type = .MINUS
      · rw [if_pos hop]
        simp only []
        have hne : st.current_token.type ≠ .EOF := by
          rcases hop with h | h <;> rw [h] <;> simp
        have hlt := Parser.current_ne_eof_lt hinv hne
        have hpos0 := Parser.advance_pos_strict hlt
        have htok0 := Parser.advance_tokens st
        have hinv0 := Parser.advance_inv hinv
        have hb : 3 * (st.advance.tokens.length - st.advance.position) ≤ n + 1 := by
          rw [htok0, hpos0]
          omega
        cases hT : Parser.parse_term n st.advance with
        | ok p =>
          obtain ⟨right, st1⟩ := p
          obtain ⟨htok1, hpos1, hinv1⟩ := (ihT st.advance hinv0 hb).2 right st1 hT
          have hb1 : 3 * (st1.tokens.length - st1.position) ≤ n + 2 := by
            rw [htok1, htok0]
            rw [htok0] at htok1
            rw [hpos0] at hpos1
            omega
          obtain ⟨hne1, hok1⟩ :=
            ihEL (.BinaryOperation left st.current_token.value right) st1 hinv1 hb1
          refine ⟨hne1, ?_⟩
          intro v st2 hv
          obtain ⟨htok2, hpos2, hinv2⟩ := hok1 v st2 hv
          refine ⟨(htok2.trans htok1).trans htok0, ?_, hinv2⟩
          rw [hpos0] at hpos1
          omega
        | err e => exact ⟨by simp [hT], by simp [hT]⟩
        | fuelOut => exact absurd hT (ihT st.advance hinv0 hb).1
      · rw [if_neg hop]
        refine ⟨by simp, ?_⟩
        intro v st1 hv
        injection hv with hv
        injection hv with hv1 hv2
        rw [← hv2]
        exact ⟨rfl, le_rfl, hinv⟩
    -- parse_term
    · intro st hinv hle
      rw [Parser.parse_term]
      cases hF : Parser.parse_factor n st with
      | ok p =>
        obtain ⟨left, st1⟩ := p
        obtain ⟨htok1, hpos1, hinv1⟩ := (ihF st hinv (by omega)).2 left st1 hF
        have hb : 3 * (st1.tokens.length - st1.position) ≤ n + 2 := by
          rw [htok1]
          omega
        obtain ⟨hne, hok⟩ := ihTL left st1 hinv1 hb
        refine ⟨hne, ?_⟩
        intro v st2 hv
        obtain ⟨htok2, hpos2, hinv2⟩ := hok v st2 hv
        exact ⟨htok2.trans htok1, by omega, hinv2⟩
      | err e => exact ⟨by simp [hF], by simp [hF]⟩
      | fuelOut => exact absurd hF (ihF st hinv (by omega)).1
    -- term_loop
    · intro left st hinv hle
      rw [Parser.term_loop]
      by_cases hop : st.current_token.type = .MULTIPLY ∨ st.current_token.type = .DIVIDE
      · rw [if_pos hop]
        simp only []
        have hne : st.current_token.type ≠ .EOF := by
          rcases hop with h | h <;> rw [h] <;> simp
        have hlt := Parser.current_ne_eof_lt hinv hne
        have hpos0 := Parser.advance_pos_strict hlt
        have htok0 := Parser.advance_tokens st
        have hinv0 := Parser.advance_inv hinv
        have hb : 3 * (st.advance.tokens.length - st.advance.position) ≤ n + 2 := by
          rw [htok0, hpos0]
          omega
        cases hF : Parser.parse_factor n st.advance with
        | ok p =>
          obtain ⟨right, st1⟩ := p
          obtain ⟨htok1, hpos1, hinv1⟩ := (ihF st.advance hinv0 hb).2 right st1 hF
          have hb1 : 3 * (st1.tokens.length - st1.position) ≤ n + 2 := by
            rw [htok1, htok0]
            rw [htok0] at htok1
            rw [hpos0] at hpos1
            omega
          obtain ⟨hne1, hok1⟩ :=
            ihTL (.BinaryOperation left st.current_token.value right) st1 hinv1 hb1
          refine ⟨hne1, ?_⟩
          intro v st2 hv
          obtain ⟨htok2, hpos2, hinv2⟩ := hok1 v st2 hv
          refine ⟨(htok2.trans htok1).trans htok0, ?_, hinv2⟩
          rw [hpos0] at hpos1
          omega
        | err e => exact ⟨by simp [hF], by simp [hF]⟩
        | fuelOut => exact absurd hF (ihF st.advance hinv0 hb).1
      · rw [if_neg hop]
        refine ⟨by simp, ?_⟩
        intro v st1 hv
        injection hv with hv
        injection hv with hv1 hv2
        rw [← hv2]
        exact ⟨rfl, le_rfl, hinv⟩
    -- parse_factor
    · intro st hinv hle
      rw [Parser.parse_factor]
      by_cases h1 : st.current_token.type = .NUMBER
      · rw [if_pos h1]
        refine ⟨by simp, ?_⟩
        intro v st1 hv
        injection hv with hv
        injection hv with hv1 hv2
        have hne : st.current_token.type ≠ .EOF := by rw [h1]; simp
        have hlt := Parser.current_ne_eof_lt hinv hne
        rw [← hv2]
        exact ⟨Parser.advance_tokens st, by rw [Parser.advance_pos_strict hlt]; omega,
          Parser.advance_inv hinv⟩
      · rw [if_neg h1]
        by_cases h2 : st.current_token.type = .IDENTIFIER
        · rw [if_pos h2]
          refine ⟨by simp, ?_⟩
          intro v st1 hv
          injection hv with hv
          injection hv with hv1 hv2
          have hne : st.current_token.type ≠ .EOF := by rw [h2]; simp
          have hlt := Parser.current_ne_eof_lt hinv hne
          rw [← hv2]
          exact ⟨Parser.advance_tokens st, by rw [Parser.advance_pos_strict hlt]; omega,
            Parser.advance_inv hinv⟩
        · rw [if_neg h2]
          by_cases h3 : st.current_token.type = .LPAREN
          · rw [if_pos h3]
            have hne : st.current_token.type ≠ .EOF := by rw [h3]; simp
            have hlt := Parser.current_ne_eof_lt hinv hne
            have hpos0 := Parser.advance_pos_strict hlt
            have htok0 := Parser.advance_tokens st
            have hinv0 := Parser.advance_inv hinv
            have hb : 3 * (st.advance.tokens.length - st.advance.position) ≤ n := by
              rw [htok0, hpos0]
              omega
            cases hE : Parser.parse_expression n st.advance with
            | ok p =>
              obtain ⟨expr, st1⟩ := p
              obtain ⟨htok1, hpos1, hinv1⟩ := (ihE st.advance hinv0 hb).2 expr st1 hE
              cases hX : st1.expect .RPAREN with
              | ok q =>
                obtain ⟨tk, st2⟩ := q
                obtain ⟨htok2, hpos2, hinv2⟩ :=
                  Parser.expect_ok_strict hinv1 (by simp) hX
                refine ⟨by simp [hX], ?_⟩
                intro v st3 hv
                simp only [hX] at hv
                injection hv with hv
                injection hv with hv1 hv2
                rw [← hv2]
                refine ⟨(htok2.trans htok1).trans htok0, ?_, hinv2⟩
                rw [htok0] at htok1
                rw [hpos0] at hpos1
                omega
              | error e =>
                refine ⟨by simp [hX], ?_⟩
                intro v st3 hv
                simp only [hX] at hv
                exact absurd hv (by simp)
            | err e => exact ⟨by simp [hE], by simp [hE]⟩
            | fuelOut => exact absurd hE (ihE st.advance hinv0 hb).1
          · rw [if_neg h3]
            exact ⟨by simp, by simp⟩

/-! ### Tree-shape predicates and the parser shape specification -/

/-- An expression subtree: only `BinaryOperation` (with an operator among
the four arithmetic symbols), `Number`, and `Variable` occur. -/
def isExprNode : ASTNode → Bool
  | .BinaryOperation l op r =>
    (op == "+" || op == "-" || op == "*" || op == "/") && isExprNode l && isExprNode r
  | .Number _ => true
  | .Variable _ => true
  | _ => false

/-- A statement node: a declaration, or an assignment to a variable with
an expression right-hand side. -/
def isStatementNode : ASTNode → Bool
  | .VariableDeclaration _ _ => true
  | .Assignment (.Variable _) e => isExprNode e
  | _ => false

/-- A well-formed program tree: a `Program` root over statements (so a
`Program` node never occurs below the root, since neither statements nor
expressions admit it). -/
def isWellFormedProgram : ASTNode → Bool
  | .Program statements => statements.all isStatementNode
  | _ => false

/-- Shape statement for `parse_expression`: errors carry a token of the
list, and produced nodes are expression subtrees. -/
def ExprShapeOK (fuel : Nat) : Prop :=
  ∀ st : Parser, st.position < st.tokens.length →
    (∀ e, Parser.parse_expression fuel st = .err e → e.token ∈ st.tokens) ∧
    (∀ v st1, Parser.parse_expression fuel st = .ok (v, st1) →
      st1.tokens = st.tokens ∧ st1.position < st.tokens.length ∧
      ((∀ t ∈ st.tokens, TokenOK t) → isExprNode v = true))

/-- Shape statement for `expression_loop`. -/
def ExprLoopShapeOK (fuel : Nat) : Prop :=
  ∀ (left : ASTNode) (st : Parser), st.position < st.tokens.length →
    (∀ e, Parser.expression_loop fuel left st = .err e → e.token ∈ st.tokens) ∧
    (∀ v st1, Parser.expression_loop fuel left st = .ok (v, st1) →
      st1.tokens = st.tokens ∧ st1.position < st.tokens.length ∧
      ((∀ t ∈ st.tokens, TokenOK t) → isExprNode left = true → isExprNode v = true))

/-- Shape statement for `parse_term`. -/
def TermShapeOK (fuel : Nat) : Prop :=
  ∀ st : Parser, st.position < st.tokens.length →
    (∀ e, Parser.parse_term fuel st = .err e → e.token ∈ st.tokens) ∧
    (∀ v st1, Parser.parse_term fuel st = .ok (v, st1) →
      st1.tokens = st.tokens ∧ st1.position < st.tokens.length ∧
      ((∀ t ∈ st.tokens, TokenOK t) → isExprNode v = true))

/-- Shape statement for `term_loop`. -/
def TermLoopShapeOK (fuel : Nat) : Prop :=
  ∀ (left : ASTNode) (st : Parser), st.position < st.tokens.length →
    (∀ e, Parser.term_loop fuel left st = .err e → e.token ∈ st.tokens) ∧
    (∀ v st1, Parser.term_loop fuel left st = .ok (v, st1) →
      st1.tokens = st.tokens ∧ st1.position < st.tokens.length ∧
      ((∀ t ∈ st.tokens, TokenOK t) → isExprNode left = true → isExprNode v = true))

/-- Shape statement for `parse_factor`. -/
def FactorShapeOK (fuel : Nat) : Prop :=
  ∀ st : Parser, st.position < st.tokens.length →
    (∀ e, Parser.parse_factor fuel st = .err e → e.token ∈ st.tokens) ∧
    (∀ v st1, Parser.parse_factor fuel st = .ok (v, st1) →
      st1.tokens = st.tokens ∧ st1.position < st.tokens.length ∧
      ((∀ t ∈ st.tokens, TokenOK t) → isExprNode v = true))

theorem parser_shape_induction :
    ∀ fuel, ExprShapeOK fuel ∧ ExprLoopShapeOK fuel ∧ TermShapeOK fuel ∧
      TermLoopShapeOK fuel ∧ FactorShapeOK fuel := by
  intro fuel
  induction fuel with
  | zero =>
    refine ⟨?_, ?_, ?_, ?_, ?_⟩ <;>
      first
        | (intro st hpos
           exact ⟨by intro e he; exact absurd he (by simp [Parser.parse_expression,
                    Parser.parse_term, Parser.parse_factor]),
                  by intro v st1 hv; exact absurd hv (by simp [Parser.parse_expression,
                    Parser.parse_term, Parser.parse_factor])⟩)
        | (intro left st hpos
           exact ⟨by intro e he; exact absurd he (by simp [Parser.expression_loop,
                    Parser.term_loop]),
                  by intro v st1 hv; exact absurd hv (by simp [Parser.expression_loop,
                    Parser.term_loop])⟩)
  | succ n ih =>
    obtain ⟨ihE, ihEL, ihT, ihTL, ihF⟩ := ih
    refine ⟨?_, ?_, ?_, ?_, ?_⟩
    -- parse_expression
    · intro st hpos
      rw [Parser.parse_expression]
      cases hT : Parser.parse_term n st with
      | ok p =>
        obtain ⟨left, st1⟩ := p
        obtain ⟨htok1, hpos1, hshape1⟩ := (ihT st hpos).2 left st1 hT
        have hpos1b : st1.position < st1.tokens.length := by rw [htok1]; exact hpos1
        obtain ⟨ihe, iho⟩ := ihEL left st1 hpos1b
        refine ⟨?_, ?_⟩
        · intro e he
          have := ihe e he
          rw [htok1] at this
          exact this
        · intro v st2 hv
          obtain ⟨htok2, hpos2, hshape2⟩ := iho v st2 hv
          refine ⟨htok2.trans htok1, by rw [htok1] at hpos2; exact hpos2, ?_⟩
          intro hqual
          have hqual1 : ∀ t ∈ st1.tokens, TokenOK t := by rw [htok1]; exact hqual
          exact hshape2 hqual1 (hshape1 hqual)
      | err e =>
        refine ⟨?_, ?_⟩
        · intro e1 he1
          simp only [hT] at he1
          injection he1 with he1
          rw [← he1]
          exact (ihT st hpos).1 e hT
        · intro v st1 hv
          simp only [hT] at hv
          exact absurd hv (by simp)
      | fuelOut =>
        refine ⟨?_, ?_⟩
        · intro e1 he1
          simp only [hT] at he1
          exact absurd he1 (by simp)
        · intro v st1 hv
          simp only [hT] at hv
          exact absurd hv (by simp)
    -- expression_loop
    · intro left st hpos
      rw [Parser.expression_loop]
      by_cases hop : st.current_token.type = .PLUS ∨ st.current_token.type = .MINUS
      · rw [if_pos hop]
        simp only []
        have hpos0 : st.advance.position < st.advance.tokens.length := by
          rw [Parser.advance_tokens]
          exact Parser.advance_pos_lt hpos
        cases hT : Parser.parse_term n st.advance with
        | ok p =>
          obtain ⟨right, st1⟩ := p
          obtain ⟨htok1, hpos1, hshape1⟩ := (ihT st.advance hpos0).2 right st1 hT
          have hpos1b : st1.position < st1.tokens.length := by
            rw [htok1]
            exact hpos1
          obtain ⟨ihe, iho⟩ :=
            ihEL (.BinaryOperation left st.current_token.value right) st1 hpos1b
          refine ⟨?_, ?_⟩
          · intro e he
            have := ihe e he
            rw [htok1, Parser.advance_tokens] at this
            exact this
          · intro v st2 hv
            obtain ⟨htok2, hpos2, hshape2⟩ := iho v st2 hv
            have htokall : st2.tokens = st.tokens := by
              rw [htok2, htok1, Parser.advance_tokens]
            refine ⟨htokall, ?_, ?_⟩
            · rw [htok1, Parser.advance_tokens] at hpos2
              exact hpos2
            · intro hqual hleft
              have hqual1 : ∀ t ∈ st1.tokens, TokenOK t := by
                rw [htok1, Parser.advance_tokens]
                exact hqual
              have hqual0 : ∀ t ∈ st.advance.tokens, TokenOK t := by
                rw [Parser.advance_tokens]
                exact hqual
              refine hshape2 hqual1 ?_
              have hcur := hqual st.current_token (Parser.current_mem hpos)
              have hopv : st.current_token.value = "+" ∨ st.current_token.value = "-" := by
                rcases hop with h | h
                · exact Or.inl (hcur.2.2.1 h)
                · exact Or.inr (hcur.2.2.2.1 h)
              have hright := hshape1 hqual0
              rw [isExprNode]
              rcases hopv with h | h <;> rw [h] <;> simp [hleft, hright]
        | err e =>
          refine ⟨?_, ?_⟩
          · intro e1 he1
            simp only [hT] at he1
            injection he1 with he1
            rw [← he1]
            have := (ihT st.advance hpos0).1 e hT
            rw [Parser.advance_tokens] at this
            exact this
          · intro v st1 hv
            simp only [hT] at hv
            exact absurd hv (by simp)
        | fuelOut =>
          refine ⟨?_, ?_⟩
          · intro e1 he1
            simp only [hT] at he1
            exact absurd he1 (by simp)
          · intro v st1 hv
            simp only [hT] at hv
            exact absurd hv (by simp)
      · rw [if_neg hop]
        refine ⟨by intro e he; exact absurd he (by simp), ?_⟩
        intro v st1 hv
        injection hv with hv
        injection hv with hv1 hv2
        rw [← hv2, ← hv1]
        exact ⟨rfl, hpos, fun _ hl => hl⟩
    -- parse_term
    · intro st hpos
      rw [Parser.parse_term]
      cases hF : Parser.parse_factor n st with
      | ok p =>
        obtain ⟨left, st1⟩ := p
        obtain ⟨htok1, hpos1, hshape1⟩ := (ihF st hpos).2 left st1 hF
        have hpos1b : st1.position < st1.tokens.length := by rw [htok1]; exact hpos1
        obtain ⟨ihe, iho⟩ := ihTL left st1 hpos1b
        refine ⟨?_, ?_⟩
        · intro e he
          have := ihe e he
          rw [htok1] at this
          exact this
        · intro v st2 hv
          obtain ⟨htok2, hpos2, hshape2⟩ := iho v st2 hv
          refine ⟨htok2.trans htok1, by rw [htok1] at hpos2; exact hpos2, ?_⟩
          intro hqual
          have hqual1 : ∀ t ∈ st1.tokens, TokenOK t := by rw [htok1]; exact hqual
          exact hshape2 hqual1 (hshape1 hqual)
      | err e =>
        refine ⟨?_, ?_⟩
        · intro e1 he1
          simp only [hF] at he1
          injection he1 with he1
          rw [← he1]
          exact (ihF st hpos).1 e hF
        · intro v st1 hv
          simp only [hF] at hv
          exact absurd hv (by simp)
      | fuelOut =>
        refine ⟨?_, ?_⟩
        · intro e1 he1
          simp only [hF] at he1
          exact absurd he1 (by simp)
        · intro v st1 hv
          simp only [hF] at hv
          exact absurd hv (by simp)
    -- term_loop
    · intro left st hpos
      rw [Parser.term_loop]
      by_cases hop : st.current_token.type = .MULTIPLY ∨ st.current_token.type = .DIVIDE
      · rw [if_pos hop]
        simp only []
        have hpos0 : st.advance.position < st.advance.tokens.length := by
          rw [Parser.advance_tokens]
          exact Parser.advance_pos_lt hpos
        cases hF : Parser.parse_factor n st.advance with
        | ok p =>
          obtain ⟨right, st1⟩ := p
          obtain ⟨htok1, hpos1, hshape1⟩ := (ihF st.advance hpos0).2 right st1 hF
          have hpos1b : st1.position < st1.tokens.length := by
            rw [htok1]
            exact hpos1
          obtain ⟨ihe, iho⟩ :=
            ihTL (.BinaryOperation left st.current_token.value right) st1 hpos1b
          refine ⟨?_, ?_⟩
          · intro e he
            have := ihe e he
            rw [htok1, Parser.advance_tokens] at this
            exact this
          · intro v st2 hv
            obtain ⟨htok2, hpos2, hshape2⟩ := iho v st2 hv
            have htokall : st2.tokens = st.tokens := by
              rw [htok2, htok1, Parser.advance_tokens]
            refine ⟨htokall, ?_, ?_⟩
            · rw [htok1, Parser.advance_tokens] at hpos2
              exact hpos2
            · intro hqual hleft
              have hqual1 : ∀ t ∈ st1.tokens, TokenOK t := by
                rw [htok1, Parser.advance_tokens]
                exact hqual
              have hqual0 : ∀ t ∈ st.advance.tokens, TokenOK t := by
                rw [Parser.advance_tokens]
                exact hqual
              refine hshape2 hqual1 ?_
              have hcur := hqual st.current_token (Parser.current_mem hpos)
              have hopv : st.current_token.value = "*" ∨ st.current_token.value = "/" := by
                rcases hop with h | h
                · exact Or.inl (hcur.2.2.2.2.1 h)
                · exact Or.inr (hcur.2.2.2.2.2 h)
              have hright := hshape1 hqual0
              rw [isExprNode]
              rcases hopv with h | h <;> rw [h] <;> simp [hleft, hright]
        | err e =>
          refine ⟨?_, ?_⟩
          · intro e1 he1
            simp only [hF] at he1
            injection he1 with he1
            rw [← he1]
            have := (ihF st.advance hpos0).1 e hF
            rw [Parser.advance_tokens] at this
            exact this
          · intro v st1 hv
            simp only [hF] at hv
            exact absurd hv (by simp)
        | fuelOut =>
          refine ⟨?_, ?_⟩
          · intro e1 he1
            simp only [hF] at he1
            exact absurd he1 (by simp)
          · intro v st1 hv
            simp only [hF] at hv
            exact absurd hv (by simp)
      · rw [if_neg hop]
        refine ⟨by intro e he; exact absurd he (by simp), ?_⟩
        intro v st1 hv
        injection hv with hv
        injection hv with hv1 hv2
        rw [← hv2, ← hv1]
        exact ⟨rfl, hpos, fun _ hl => hl⟩
    -- parse_factor
    · intro st hpos
      rw [Parser.parse_factor]
      by_cases h1 : st.current_token.type = .NUMBER
      · rw [if_pos h1]
        refine ⟨by intro e he; exact absurd he (by simp), ?_⟩
        intro v st1 hv
        injection hv with hv
        injection hv with hv1 hv2
        rw [← hv2, ← hv1]
        refine ⟨Parser.advance_tokens st, Parser.advance_pos_lt hpos, ?_⟩
        · intro _
          rw [isExprNode]
      · rw [if_neg h1]
        by_cases h2 : st.current_token.type = .IDENTIFIER
        · rw [if_pos h2]
          refine ⟨by intro e he; exact absurd he (by simp), ?_⟩
          intro v st1 hv
          injection hv with hv
          injection hv with hv1 hv2
          rw [← hv2, ← hv1]
          refine ⟨Parser.advance_tokens st, Parser.advance_pos_lt hpos, ?_⟩
          · intro _
            rw [isExprNode]
        · rw [if_neg h2]
          by_cases h3 : st.current_token.type = .LPAREN
          · rw [if_pos h3]
            have hpos0 : st.advance.position < st.advance.tokens.length := by
              rw [Parser.advance_tokens]
              exact Parser.advance_pos_lt hpos
            cases hE : Parser.parse_expression n st.advance with
            | ok p =>
              obtain ⟨expr, st1⟩ := p
              obtain ⟨htok1, hpos1, hshape1⟩ := (ihE st.advance hpos0).2 expr st1 hE
              cases hX : st1.expect .RPAREN with
              | ok q =>
                obtain ⟨tk, st2⟩ := q
                obtain ⟨hc, htk, hst2⟩ := Parser.expect_ok_dest hX
                refine ⟨?_, ?_⟩
                · intro e he
                  simp only [hX] at he
                  exact absurd he (by simp)
                · intro v st3 hv
                  simp only [hX] at hv
                  injection hv with hv
                  injection hv with hv1 hv2
                  rw [← hv2, ← hv1]
                  have htok2 : st2.tokens = st1.tokens := by
                    rw [hst2, Parser.advance_tokens]
                  have hpos2 : st2.position < st2.tokens.length := by
                    rw [hst2, Parser.advance_tokens]
                    apply Parser.advance_pos_lt
                    rw [htok1]
                    exact hpos1
                  refine ⟨by rw [htok2, htok1, Parser.advance_tokens], ?_, ?_⟩
                  · rw [htok2, htok1, Parser.advance_tokens] at hpos2
                    exact hpos2
                  · intro hqual
                    have hqual0 : ∀ t ∈ st.advance.tokens, TokenOK t := by
                      rw [Parser.advance_tokens]
                      exact hqual
                    exact hshape1 hqual0
              | error e =>
                refine ⟨?_, ?_⟩
                · intro e1 he1
                  simp only [hX] at he1
                  injection he1 with he1
                  rw [← he1]
                  obtain ⟨_, he⟩ := Parser.expect_err_dest hX
                  rw [he]
                  have hmem : st1.current_token ∈ st1.tokens :=
                    @Parser.current_mem st1 (by rw [htok1]; exact hpos1)
                  rw [htok1, Parser.advance_tokens] at hmem
                  exact hmem
                · intro v st3 hv
                  simp only [hX] at hv
                  exact absurd hv (by simp)
            | err e =>
              refine ⟨?_, ?_⟩
              · intro e1 he1
                simp only [hE] at he1
                injection he1 with he1
                rw [← he1]
                have := (ihE st.advance hpos0).1 e hE
                rw [Parser.advance_tokens] at this
                exact this
              · intro v st1 hv
                simp only [hE] at hv
                exact absurd hv (by simp)
            | fuelOut =>
              refine ⟨?_, ?_⟩
              · intro e1 he1
                simp only [hE] at he1
                exact absurd he1 (by simp)
              · intro v st1 hv
                simp only [hE] at hv
                exact absurd hv (by simp)
          · rw [if_neg h3]
            refine ⟨?_, ?_⟩
            · intro e he
              injection he with he
              rw [← he]
              exact Parser.current_mem hpos
            · intro v st1 hv
              exact absurd hv (by simp)

theorem Parser.parse_declaration_spec {st : Parser} (hinv : PInv st) :
    (∀ e, st.parse_declaration = .error e → e.token ∈ st.tokens) ∧
    (∀ v st1, st.parse_declaration = .ok (v, st1) →
      st1.tokens = st.tokens ∧ st1.position = st.position + 3 ∧ PInv st1 ∧
      ∃ name, v = .VariableDeclaration "int" name) := by
  rw [Parser.parse_declaration]
  cases hX1 : st.expect .INT with
  | error e =>
    refine ⟨?_, ?_⟩
    · intro e1 he1
      injection he1 with he1
      rw [← he1, (Parser.expect_err_dest hX1).2]
      exact Parser.current_mem hinv.1
    · intro v st1 hv
      exact absurd hv (by simp)
  | ok q =>
    obtain ⟨tk1, stA⟩ := q
    obtain ⟨htokA, hposA, hinvA⟩ := Parser.expect_ok_strict hinv (by simp) hX1
    cases hX2 : stA.expect .IDENTIFIER with
    | error e =>
      refine ⟨?_, ?_⟩
      · intro e1 he1
        simp only [hX2] at he1
        injection he1 with he1
        rw [← he1, (Parser.expect_err_dest hX2).2]
        have := @Parser.current_mem stA hinvA.1
        rw [htokA] at this
        exact this
      · intro v st1 hv
        simp only [hX2] at hv
        exact absurd hv (by simp)
    | ok q2 =>
      obtain ⟨name_token, stB⟩ := q2
      obtain ⟨htokB, hposB, hinvB⟩ := Parser.expect_ok_strict hinvA (by simp) hX2
      cases hX3 : stB.expect .SEMICOLON with
      | error e =>
        refine ⟨?_, ?_⟩
        · intro e1 he1
          simp only [hX2, hX3] at he1
          injection he1 with he1
          rw [← he1, (Parser.expect_err_dest hX3).2]
          have := @Parser.current_mem stB hinvB.1
          rw [htokB, htokA] at this
          exact this
        · intro v st1 hv
          simp only [hX2, hX3] at hv
          exact absurd hv (by simp)
      | ok q3 =>
        obtain ⟨tk3, stC⟩ := q3
        obtain ⟨htokC, hposC, hinvC⟩ := Parser.expect_ok_strict hinvB (by simp) hX3
        refine ⟨?_, ?_⟩
        · intro e1 he1
          simp only [hX2, hX3] at he1
          exact absurd he1 (by simp)
        · intro v st1 hv
          simp only [hX2, hX3] at hv
          injection hv with hv
          injection hv with hv1 hv2
          rw [← hv2, ← hv1]
          refine ⟨by rw [htokC, htokB, htokA], by omega, hinvC, name_token.value, rfl⟩

theorem Parser.parse_assignment_spec {fuel : Nat} {st : Parser} (hinv : PInv st)
    (hqual : ∀ t ∈ st.tokens, TokenOK t)
    (hle : 3 * (st.tokens.length - st.position) ≤ fuel + 6) :
    Parser.parse_assignment fuel st ≠ .fuelOut ∧
    (∀ e, Parser.parse_assignment fuel st = .err e → e.token ∈ st.tokens) ∧
    (∀ v st1, Parser.parse_assignment fuel st = .ok (v, st1) →
      st1.tokens = st.tokens ∧ st.position + 4 ≤ st1.position ∧ PInv st1 ∧
      isStatementNode v = true) := by
  rw [Parser.parse_assignment]
  cases hX1 : st.expect .IDENTIFIER with
  | error e =>
    refine ⟨by simp, ?_, ?_⟩
    · intro e1 he1
      injection he1 with he1
      rw [← he1, (Parser.expect_err_dest hX1).2]
      exact Parser.current_mem hinv.1
    · intro v st1 hv
      exact absurd hv (by simp)
  | ok q =>
    obtain ⟨name_token, stA⟩ := q
    obtain ⟨htokA, hposA, hinvA⟩ := Parser.expect_ok_strict hinv (by simp) hX1
    cases hX2 : stA.expect .ASSIGN with
    | error e =>
      refine ⟨by simp [hX2], ?_, ?_⟩
      · intro e1 he1
        simp only [hX2] at he1
        injection he1 with he1
        rw [← he1, (Parser.expect_err_dest hX2).2]
        have := @Parser.current_mem stA hinvA.1
        rw [htokA] at this
        exact this
      · intro v st1 hv
        simp only [hX2] at hv
        exact absurd hv (by simp)
    | ok q2 =>
      obtain ⟨tk2, stB⟩ := q2
      obtain ⟨htokB, hposB, hinvB⟩ := Parser.expect_ok_strict hinvA (by simp) hX2
      have hleB : 3 * (stB.tokens.length - stB.position) ≤ fuel := by
        rw [htokB, htokA]
        omega
      obtain ⟨hEfuel, hEok⟩ := (parser_fuel_induction fuel).1 stB hinvB hleB
      obtain ⟨hEerr, hEshape⟩ :=
        (parser_shape_induction fuel).1 stB hinvB.1
      cases hE : Parser.parse_expression fuel stB with
      | fuelOut => exact absurd hE hEfuel
      | err e =>
        refine ⟨by simp [hX2, hE], ?_, ?_⟩
        · intro e1 he1
          simp only [hX2, hE] at he1
          injection he1 with he1
          rw [← he1]
          have := hEerr e hE
          rw [htokB, htokA] at this
          exact this
        · intro v st1 hv
          simp only [hX2, hE] at hv
          exact absurd hv (by simp)
      | ok p =>
        obtain ⟨expression, stC⟩ := p
        obtain ⟨htokC, hposC, hinvC⟩ := hEok expression stC hE
        obtain ⟨htokC2, hposC2, hshapeC⟩ := hEshape expression stC hE
        cases hX3 : stC.expect .SEMICOLON with
        | error e =>
          refine ⟨by simp [hX2, hE, hX3], ?_, ?_⟩
          · intro e1 he1
            simp only [hX2, hE, hX3] at he1
            injection he1 with he1
            rw [← he1, (Parser.expect_err_dest hX3).2]
            have := @Parser.current_mem stC hinvC.1
            rw [htokC, htokB, htokA] at this
            exact this
          · intro v st1 hv
            simp only [hX2, hE, hX3] at hv
            exact absurd hv (by simp)
        | ok q3 =>
          obtain ⟨tk3, stD⟩ := q3
          obtain ⟨htokD, hposD, hinvD⟩ := Parser.expect_ok_strict hinvC (by simp) hX3
          refine ⟨by simp [hX2, hE, hX3], ?_, ?_⟩
          · intro e1 he1
            simp only [hX2, hE, hX3] at he1
            exact absurd he1 (by simp)
          · intro v st1 hv
            simp only [hX2, hE, hX3] at hv
            injection hv with hv
            injection hv with hv1 hv2
            rw [← hv2, ← hv1]
            refine ⟨by rw [htokD, htokC, htokB, htokA], by omega, hinvD, ?_⟩
            rw [isStatementNode]
            apply hshapeC
            intro t ht
            rw [htokB, htokA] at ht
            exact hqual t ht

theorem Parser.parse_loop_spec {tokens0 : List Token}
    (hqual : ∀ t ∈ tokens0, TokenOK t) :
    ∀ (fuel : Nat) (st : Parser) (acc : List ASTNode),
      st.tokens = tokens0 → PInv st →
      3 * (st.tokens.length - st.position) ≤ fuel + 2 →
      Parser.parse_loop fuel st acc ≠ .fuelOut ∧
      (∀ e, Parser.parse_loop fuel st acc = .err e → e.token ∈ tokens0) ∧
      (∀ v st1, Parser.parse_loop fuel st acc = .ok (v, st1) →
        (∀ s ∈ acc, isStatementNode s = true) →
        ∃ stmts, v = .Program stmts ∧ ∀ s ∈ stmts, isStatementNode s = true) := by
  intro fuel
  induction fuel with
  | zero =>
    intro st acc htok0 hinv hle
    exfalso
    have := hinv.1
    omega
  | succ n ih =>
    intro st acc htok0 hinv hle
    rw [Parser.parse_loop]
    by_cases hEOF : st.current_token.type = .EOF
    · rw [if_pos hEOF]
      refine ⟨by simp, by simp, ?_⟩
      intro v st1 hv hacc
      injection hv with hv
      injection hv with hv1 hv2
      exact ⟨acc, hv1.symm, hacc⟩
    · rw [if_neg hEOF]
      by_cases hINT : st.current_token.type = .INT
      · rw [if_pos hINT]
        obtain ⟨hDerr, hDok⟩ := Parser.parse_declaration_spec hinv
        cases hD : st.parse_declaration with
        | error e =>
          refine ⟨by simp, ?_, ?_⟩
          · intro e1 he1
            injection he1 with he1
            rw [← he1, ← htok0]
            exact hDerr e hD
          · intro v st1 hv
            exact absurd hv (by simp)
        | ok p =>
          obtain ⟨stmt, stA⟩ := p
          obtain ⟨htokA, hposA, hinvA, name, hstmt⟩ := hDok stmt stA hD
          have hleA : 3 * (stA.tokens.length - stA.position) ≤ n + 2 := by
            rw [htokA]
            omega
          obtain ⟨ihfuel, iherr, ihok⟩ :=
            ih stA (acc ++ [stmt]) (htokA.trans htok0) hinvA hleA
          refine ⟨ihfuel, iherr, ?_⟩
          intro v st1 hv hacc
          refine ihok v st1 hv ?_
          intro s hs
          rcases List.mem_append.mp hs with h | h
          · exact hacc s h
          · rw [List.mem_singleton.mp h, hstmt]
            rw [isStatementNode]
      · rw [if_neg hINT]
        by_cases hID : st.current_token.type = .IDENTIFIER
        · rw [if_pos hID]
          have hqualst : ∀ t ∈ st.tokens, TokenOK t := by rw [htok0]; exact hqual
          obtain ⟨hAfuel, hAerr, hAok⟩ :=
            @Parser.parse_assignment_spec n st hinv hqualst (by omega)
          cases hA : Parser.parse_assignment n st with
          | fuelOut => exact absurd hA hAfuel
          | err e =>
            refine ⟨by simp, ?_, ?_⟩
            · intro e1 he1
              injection he1 with he1
              rw [← he1, ← htok0]
              exact hAerr e hA
            · intro v st1 hv
              exact absurd hv (by simp)
          | ok p =>
            obtain ⟨stmt, stA⟩ := p
            obtain ⟨htokA, hposA, hinvA, hstmt⟩ := hAok stmt stA hA
            have hleA : 3 * (stA.tokens.length - stA.position) ≤ n + 2 := by
              rw [htokA]
              omega
            obtain ⟨ihfuel, iherr, ihok⟩ :=
              ih stA (acc ++ [stmt]) (htokA.trans htok0) hinvA hleA
            refine ⟨ihfuel, iherr, ?_⟩
            intro v st1 hv hacc
            refine ihok v st1 hv ?_
            intro s hs
            rcases List.mem_append.mp hs with h | h
            · exact hacc s h
            · rw [List.mem_singleton.mp h]
              exact hstmt
        · rw [if_neg hID]
          refine ⟨by simp, ?_, ?_⟩
          · intro e1 he1
            injection he1 with he1
            rw [← he1, ← htok0]
            exact Parser.current_mem hinv.1
          · intro v st1 hv
            exact absurd hv (by simp)

theorem Parser.parse_spec {tokens : List Token}
    (hne : tokens ≠ []) (hlast : lastEOF tokens) (hqual : ∀ t ∈ tokens, TokenOK t) :
    Parser.parse (3 * tokens.length + 1) tokens ≠ .fuelOut ∧
    (∀ e, Parser.parse (3 * tokens.length + 1) tokens = .err e → e.token ∈ tokens) ∧
    (∀ v st1, Parser.parse (3 * tokens.length + 1) tokens = .ok (v, st1) →
      isWellFormedProgram v = true) := by
  have hinv : PInv ⟨tokens, 0⟩ := ⟨List.length_pos.mpr hne, hlast⟩
  obtain ⟨hfuel, herr, hok⟩ :=
    Parser.parse_loop_spec hqual (3 * tokens.length + 1) ⟨tokens, 0⟩ [] rfl hinv
      (by simp only []; omega)
  rw [Parser.parse]
  refine ⟨hfuel, herr, ?_⟩
  intro v st1 hv
  obtain ⟨stmts, rfl, hall⟩ := hok v st1 hv (by simp)
  rw [isWellFormedProgram]
  rw [List.all_eq_true]
  intro s hs
  exact hall s hs

theorem parse_mini_c_spec (src : String) :
    parse_mini_c src ≠ .fuelOut ∧
    (∀ ast, parse_mini_c src = .ok ast → isWellFormedProgram ast = true) ∧
    (∀ e, parse_mini_c src = .parseFail e → TokenOK e.token) ∧
    (∀ e, parse_mini_c src = .lexFail e → tokenize src = .err e) := by
  cases htk : tokenize src with
  | err e =>
    have hstep : parse_mini_c src = .lexFail e := by simp only [parse_mini_c, htk]
    rw [hstep]
    refine ⟨by simp, by simp, by simp, ?_⟩
    intro e1 he1
    injection he1 with he1
    rw [← he1]
  | fuelOut => exact absurd htk (tokenize_ne_fuelOut src)
  | ok ts =>
    obtain ⟨hfuel, herr, hok⟩ :=
      Parser.parse_spec (tokenize_ne_nil htk) (tokenize_lastEOF htk)
        (tokenize_tokens_ok htk)
    cases hp : Parser.parse (3 * ts.length + 1) ts with
    | fuelOut => exact absurd hp hfuel
    | err e =>
      have hstep : parse_mini_c src = .parseFail e := by simp only [parse_mini_c, htk, hp]
      rw [hstep]
      refine ⟨by simp, by simp, ?_, by simp⟩
      intro e1 he1
      injection he1 with he1
      rw [← he1]
      exact tokenize_tokens_ok htk e.token (herr e hp)
    | ok p =>
      obtain ⟨ast, stx⟩ := p
      have hstep : parse_mini_c src = .ok ast := by simp only [parse_mini_c, htk, hp]
      rw [hstep]
      refine ⟨by simp, ?_, by simp, by simp⟩
      intro ast1 hast
      injection hast with hast
      rw [← hast]
      exact hok ast stx hp

/-! ### Claim theorems -/

/-- C7: scanning always terminates (the fuel `length + 1`, one unit per
loop iteration, is never exhausted because every iteration consumes at
least one character or raises), and the whole pipeline — hence parsing of
every scanner-produced token sequence with fuel `3·n + 1` — terminates as
well, on both well-formed and malformed input. -/
theorem C7_termination (src : String) :
    tokenize src ≠ .fuelOut ∧ parse_mini_c src ≠ .fuelOut ∧
    ∀ ts, tokenize src = .ok ts → Parser.parse (3 * ts.length + 1) ts ≠ .fuelOut := by
  refine ⟨tokenize_ne_fuelOut src, (parse_mini_c_spec src).1, ?_⟩
  intro ts hts
  exact (Parser.parse_spec (tokenize_ne_nil hts) (tokenize_lastEOF hts)
    (tokenize_tokens_ok hts)).1

/-- Witness for C7: the inner termination statement applied at the
concrete source `"x"`, whose token sequence is written out. -/
theorem C7_termination_witness :
    tokenize "x" ≠ .fuelOut ∧ parse_mini_c "x" ≠ .fuelOut ∧
    Parser.parse (3 * 2 + 1)
      [⟨.IDENTIFIER, "x", 1, 1⟩, ⟨.EOF, "", 1, 2⟩] ≠ .fuelOut := by
  obtain ⟨h1, h2, h3⟩ := C7_termination "x"
  exact ⟨h1, h2, h3 [⟨.IDENTIFIER, "x", 1, 1⟩, ⟨.EOF, "", 1, 2⟩] rfl⟩

/-- C4: on success the token sequence is non-empty, ends with the unique
`EOF` token, whose text is empty and whose line/column are the final
cursor position after consuming the whole input (trailing whitespace
included). -/
theorem C4_eof_marker {src : String} {ts : List Token} (h : tokenize src = .ok ts) :
    ts ≠ [] ∧
    ∃ rest, ts = rest ++ [⟨.EOF, "", (posFold src.data).1, (posFold src.data).2⟩] ∧
      ∀ t ∈ rest, t.type ≠ .EOF := by
  obtain ⟨rest, hrest, hok⟩ := tokenize_ok_spec h
  refine ⟨by rw [hrest]; simp, rest, hrest, ?_⟩
  intro t ht
  exact (hok t ht).2

/-- Witness for C4 at the source `"1 "` (with trailing whitespace): the
end marker sits at line 1, column 3. -/
theorem C4_eof_marker_witness :
    ([⟨.NUMBER, "1", 1, 1⟩, ⟨.EOF, "", 1, 3⟩] : List Token) ≠ [] ∧
    ∃ rest, ([⟨.NUMBER, "1", 1, 1⟩, ⟨.EOF, "", 1, 3⟩] : List Token) =
        rest ++ [⟨.EOF, "", (posFold "1 ".data).1, (posFold "1 ".data).2⟩] ∧
      ∀ t ∈ rest, t.type ≠ .EOF :=
  @C4_eof_marker "1 " [⟨.NUMBER, "1", 1, 1⟩, ⟨.EOF, "", 1, 3⟩] rfl

/-- C2: every error of either kind renders exactly as
`"<Kind> at <line>:<column>: <message>"`; the positions are 1-based, and
they are those of the offending character (lexical case, which also
names that character in its message) or of the offending token carried by
the parse error. -/
theorem C2_error_format (src : String) :
    (∀ e, tokenize src = .err e →
      e.render = "Lexer Error at " ++ toString e.line ++ ":" ++ toString e.column ++
        ": " ++ e.message ∧
      1 ≤ e.line ∧ 1 ≤ e.column ∧
      ∃ pre c tl, src.data = pre ++ c :: tl ∧ (e.line, e.column) = posFold pre ∧
        e.message = unexpectedCharMessage c) ∧
    (∀ e, parse_mini_c src = .parseFail e →
      e.render = "Parse Error at " ++ toString e.token.line ++ ":" ++
        toString e.token.column ++ ": " ++ e.message ∧
      1 ≤ e.token.line ∧ 1 ≤ e.token.column) := by
  refine ⟨?_, ?_⟩
  · intro e he
    obtain ⟨pre, c, tl, hsrc, hpos, hmsg⟩ := tokenize_err_spec he
    have hp := posFold_pos pre
    have h1 : e.line = (posFold pre).1 := congrArg Prod.fst hpos
    have h2 : e.column = (posFold pre).2 := congrArg Prod.snd hpos
    exact ⟨rfl, by rw [h1]; exact hp.1, by rw [h2]; exact hp.2,
      pre, c, tl, hsrc, hpos, hmsg⟩
  · intro e he
    have := (parse_mini_c_spec src).2.2.1 e he
    exact ⟨rfl, this.1, this.2.1⟩

/-- Witness for C2: the lexical error raised on `"@"` and the parse error
raised on `"x"` (assignment hitting `EOF` where `ASSIGN` was required),
with both renderings and 1-based positions checked concretely. -/
theorem C2_error_format_witness :
    ((⟨unexpectedCharMessage '@', 1, 1⟩ : LexerError).render =
      "Lexer Error at 1:1: " ++ unexpectedCharMessage '@' ∧
     1 ≤ (1 : Nat) ∧ 1 ≤ (1 : Nat) ∧
     ∃ pre c tl, "@".data = pre ++ c :: tl ∧ ((1 : Nat), (1 : Nat)) = posFold pre ∧
       unexpectedCharMessage '@' = unexpectedCharMessage c) ∧
    ((⟨"Expected ASSIGN, got EOF",
        ⟨.EOF, "", 1, 2⟩⟩ : ParseError).render =
      "Parse Error at 1:2: Expected ASSIGN, got EOF" ∧
     1 ≤ (1 : Nat) ∧ 1 ≤ (2 : Nat)) := by
  have h1 := (C2_error_format "@").1 ⟨unexpectedCharMessage '@', 1, 1⟩ rfl
  have h2 := (C2_error_format "x").2
    ⟨"Expected ASSIGN, got EOF", ⟨.EOF, "", 1, 2⟩⟩ rfl
  exact ⟨h1, h2⟩

/-- C5: every tree accepted by the full pipeline is well-formed: the root
is a `Program` node over a list of statements, each statement is a
`VariableDeclaration` or an `Assignment` (to a `Variable` node), every
expression subtree is built from `BinaryOperation`/`Number`/`Variable`
only with operators among `+ - * /`, and consequently no `Program` node
occurs below the root. -/
theorem C5_tree_invariants {src : String} {ast : ASTNode}
    (h : parse_mini_c src = .ok ast) :
    (∃ stmts, ast = .Program stmts ∧ ∀ s ∈ stmts, isStatementNode s = true) ∧
    isWellFormedProgram ast = true := by
  have hwf := (parse_mini_c_spec src).2.1 ast h
  refine ⟨?_, hwf⟩
  cases ast with
  | Program stmts =>
    refine ⟨stmts, rfl, ?_⟩
    rw [isWellFormedProgram, List.all_eq_true] at hwf
    exact hwf
  | VariableDeclaration a b => exact Bool.noConfusion hwf
  | Assignment a b => exact Bool.noConfusion hwf
  | BinaryOperation a b c => exact Bool.noConfusion hwf
  | Number a => exact Bool.noConfusion hwf
  | Variable a => exact Bool.noConfusion hwf

/-- Witness for C5 at `"int x; x = 1 + 2 * 3;"`. -/
theorem C5_tree_invariants_witness :
    (∃ stmts, (ASTNode.Program [.VariableDeclaration "int" "x",
        .Assignment (.Variable "x")
          (.BinaryOperation (.Number 1) "+"
            (.BinaryOperation (.Number 2) "*" (.Number 3)))]) = .Program stmts ∧
      ∀ s ∈ stmts, isStatementNode s = true) ∧
    isWellFormedProgram (ASTNode.Program [.VariableDeclaration "int" "x",
        .Assignment (.Variable "x")
          (.BinaryOperation (.Number 1) "+"
            (.BinaryOperation (.Number 2) "*" (.Number 3)))]) = true :=
  @C5_tree_invariants "int x; x = 1 + 2 * 3;" _ rfl

/-- C6: `expect(k)` raises exactly when the current token's kind differs
from `k` — the error names the expected and actual kinds and carries the
current token — and otherwise returns the current token and advances;
`advance` moves one token forward except at the final token, where it
leaves the parser unchanged. -/
theorem C6_expect_advance (st : Parser) (k : TokenType) :
    (st.current_token.type ≠ k →
      st.expect k = .error ⟨"Expected " ++ k.value ++ ", got " ++
        st.current_token.type.value, st.current_token⟩) ∧
    (st.current_token.type = k →
      st.expect k = .ok (st.current_token, st.advance)) ∧
    (st.position < st.tokens.length - 1 →
      st.advance = { st with position := st.position + 1 }) ∧
    (¬ st.position < st.tokens.length - 1 → st.advance = st) := by
  refine ⟨?_, ?_, ?_, ?_⟩
  · intro hne
    rw [Parser.expect, if_pos hne]
  · intro heq
    rw [Parser.expect, if_neg (by simp [heq])]
  · intro hlt
    rw [Parser.advance, if_pos hlt]
  · intro hge
    rw [Parser.advance, if_neg hge]

/-- Witness for C6: both `expect` outcomes and both `advance` behaviours
at concrete parser states over the tokens of `"int x"`. -/
theorem C6_expect_advance_witness :
    ((⟨[⟨.INT, "int", 1, 1⟩, ⟨.EOF, "", 1, 6⟩], 0⟩ : Parser).expect .INT =
      .ok (⟨.INT, "int", 1, 1⟩, ⟨[⟨.INT, "int", 1, 1⟩, ⟨.EOF, "", 1, 6⟩], 1⟩)) ∧
    ((⟨[⟨.INT, "int", 1, 1⟩, ⟨.EOF, "", 1, 6⟩], 0⟩ : Parser).expect .NUMBER =
      .error ⟨"Expected NUMBER, got INT", ⟨.INT, "int", 1, 1⟩⟩) ∧
    ((⟨[⟨.INT, "int", 1, 1⟩, ⟨.EOF, "", 1, 6⟩], 1⟩ : Parser).advance =
      ⟨[⟨.INT, "int", 1, 1⟩, ⟨.EOF, "", 1, 6⟩], 1⟩) := by
  refine ⟨?_, ?_, ?_⟩
  · have h := (C6_expect_advance ⟨[⟨.INT, "int", 1, 1⟩, ⟨.EOF, "", 1, 6⟩], 0⟩ .INT).2.1 rfl
    rw [h]
    have h2 := (C6_expect_advance ⟨[⟨.INT, "int", 1, 1⟩, ⟨.EOF, "", 1, 6⟩], 0⟩ .INT).2.2.1
      (by decide)
    rw [h2]
    rfl
  · exact (C6_expect_advance ⟨[⟨.INT, "int", 1, 1⟩, ⟨.EOF, "", 1, 6⟩], 0⟩ .NUMBER).1
      (by decide)
  · exact (C6_expect_advance ⟨[⟨.INT, "int", 1, 1⟩, ⟨.EOF, "", 1, 6⟩], 1⟩ .INT).2.2.2
      (by decide)

/-- C8: the tree renderer is total and deterministic on the six node
variants: it emits at least one line for every node, its output does not
depend on the printer instance's prior state (the buffer is reset on each
call), and a second call on the returned instance reproduces the text
character for character. -/
theorem C8_renderer_deterministic (p q : ASTPrettyPrinter) (node : ASTNode) :
    (p.print_ast node).1 = (q.print_ast node).1 ∧
    ((p.print_ast node).2.print_ast node).1 = (p.print_ast node).1 ∧
    print_node node "" true ≠ [] := by
  refine ⟨rfl, rfl, ?_⟩
  cases node <;> simp [print_node]


/-- C1: multiplication/division bind tighter than addition/subtraction
and chains at one precedence level fold to the left: for arbitrary number
tokens `a b c`, `a op1 b op2 c` with both operators additive (or both
multiplicative) parses as `(a op1 b) op2 c`, a mixed chain
`a (+|-) b (*|/) c` parses with the multiplicative pair nested on the
right, and concretely `x = 2 + 3 * 4;` yields multiplication nested under
the right operand of the addition — never the reverse nesting. -/
theorem C1_precedence_left_assoc :
    (∀ (sa sb sc v1 v2 sE : String) (la ca lb cb lc cc l1 c1 l2 c2 le ce f : Nat)
       (o1 o2 : TokenType),
      (o1 = .PLUS ∨ o1 = .MINUS) → (o2 = .PLUS ∨ o2 = .MINUS) →
      Parser.parse_expression (f + 9)
          ⟨[⟨.NUMBER, sa, la, ca⟩, ⟨o1, v1, l1, c1⟩, ⟨.NUMBER, sb, lb, cb⟩,
            ⟨o2, v2, l2, c2⟩, ⟨.NUMBER, sc, lc, cc⟩, ⟨.EOF, sE, le, ce⟩], 0⟩ =
        .ok (.BinaryOperation
              (.BinaryOperation (.Number (strToNat sa)) v1 (.Number (strToNat sb)))
              v2 (.Number (strToNat sc)),
             ⟨[⟨.NUMBER, sa, la, ca⟩, ⟨o1, v1, l1, c1⟩, ⟨.NUMBER, sb, lb, cb⟩,
               ⟨o2, v2, l2, c2⟩, ⟨.NUMBER, sc, lc, cc⟩, ⟨.EOF, sE, le, ce⟩], 5⟩)) ∧
    (∀ (sa sb sc v1 v2 sE : String) (la ca lb cb lc cc l1 c1 l2 c2 le ce f : Nat)
       (o1 o2 : TokenType),
      (o1 = .MULTIPLY ∨ o1 = .DIVIDE) → (o2 = .MULTIPLY ∨ o2 = .DIVIDE) →
      Parser.parse_expression (f + 9)
          ⟨[⟨.NUMBER, sa, la, ca⟩, ⟨o1, v1, l1, c1⟩, ⟨.NUMBER, sb, lb, cb⟩,
            ⟨o2, v2, l2, c2⟩, ⟨.NUMBER, sc, lc, cc⟩, ⟨.EOF, sE, le, ce⟩], 0⟩ =
        .ok (.BinaryOperation
              (.BinaryOperation (.Number (strToNat sa)) v1 (.Number (strToNat sb)))
              v2 (.Number (strToNat sc)),
             ⟨[⟨.NUMBER, sa, la, ca⟩, ⟨o1, v1, l1, c1⟩, ⟨.NUMBER, sb, lb, cb⟩,
               ⟨o2, v2, l2, c2⟩, ⟨.NUMBER, sc, lc, cc⟩, ⟨.EOF, sE, le, ce⟩], 5⟩)) ∧
    (∀ (sa sb sc v1 v2 sE : String) (la ca lb cb lc cc l1 c1 l2 c2 le ce f : Nat)
       (o1 o2 : TokenType),
      (o1 = .PLUS ∨ o1 = .MINUS) → (o2 = .MULTIPLY ∨ o2 = .DIVIDE) →
      Parser.parse_expression (f + 9)
          ⟨[⟨.NUMBER, sa, la, ca⟩, ⟨o1, v1, l1, c1⟩, ⟨.NUMBER, sb, lb, cb⟩,
            ⟨o2, v2, l2, c2⟩, ⟨.NUMBER, sc, lc, cc⟩, ⟨.EOF, sE, le, ce⟩], 0⟩ =
        .ok (.BinaryOperation (.Number (strToNat sa)) v1
              (.BinaryOperation (.Number (strToNat sb)) v2 (.Number (strToNat sc))),
             ⟨[⟨.NUMBER, sa, la, ca⟩, ⟨o1, v1, l1, c1⟩, ⟨.NUMBER, sb, lb, cb⟩,
               ⟨o2, v2, l2, c2⟩, ⟨.NUMBER, sc, lc, cc⟩, ⟨.EOF, sE, le, ce⟩], 5⟩)) ∧
    parse_mini_c "x = 2 + 3 * 4;" =
      .ok (.Program [.Assignment (.Variable "x")
            (.BinaryOperation (.Number 2) "+"
              (.BinaryOperation (.Number 3) "*" (.Number 4)))]) := by
  refine ⟨?_, ?_, ?_, rfl⟩ <;>
    (intro sa sb sc v1 v2 sE la ca lb cb lc cc l1 c1 l2 c2 le ce f o1 o2 ho1 ho2
     rcases ho1 with rfl | rfl <;> rcases ho2 with rfl | rfl <;>
       simp [Parser.parse_expression, Parser.parse_term, Parser.parse_factor,
         Parser.expression_loop, Parser.term_loop, Parser.current_token, Parser.advance,
         Parser.expect])

/-- Witness for C1: the three general parts instantiated at concrete
tokens (`1 + 2 - 3`, `1 * 2 / 3`, `1 - 2 * 3`). -/
theorem C1_precedence_left_assoc_witness :
    Parser.parse_expression 9
        ⟨[⟨.NUMBER, "1", 1, 1⟩, ⟨.PLUS, "+", 1, 3⟩, ⟨.NUMBER, "2", 1, 5⟩,
          ⟨.MINUS, "-", 1, 7⟩, ⟨.NUMBER, "3", 1, 9⟩, ⟨.EOF, "", 1, 10⟩], 0⟩ =
      .ok (.BinaryOperation
            (.BinaryOperation (.Number (strToNat "1")) "+" (.Number (strToNat "2")))
            "-" (.Number (strToNat "3")),
           ⟨[⟨.NUMBER, "1", 1, 1⟩, ⟨.PLUS, "+", 1, 3⟩, ⟨.NUMBER, "2", 1, 5⟩,
             ⟨.MINUS, "-", 1, 7⟩, ⟨.NUMBER, "3", 1, 9⟩, ⟨.EOF, "", 1, 10⟩], 5⟩) ∧
    Parser.parse_expression 9
        ⟨[⟨.NUMBER, "1", 1, 1⟩, ⟨.MULTIPLY, "*", 1, 3⟩, ⟨.NUMBER, "2", 1, 5⟩,
          ⟨.DIVIDE, "/", 1, 7⟩, ⟨.NUMBER, "3", 1, 9⟩, ⟨.EOF, "", 1, 10⟩], 0⟩ =
      .ok (.BinaryOperation
            (.BinaryOperation (.Number (strToNat "1")) "*" (.Number (strToNat "2")))
            "/" (.Number (strToNat "3")),
           ⟨[⟨.NUMBER, "1", 1, 1⟩, ⟨.MULTIPLY, "*", 1, 3⟩, ⟨.NUMBER, "2", 1, 5⟩,
             ⟨.DIVIDE, "/", 1, 7⟩, ⟨.NUMBER, "3", 1, 9⟩, ⟨.EOF, "", 1, 10⟩], 5⟩) ∧
    Parser.parse_expression 9
        ⟨[⟨.NUMBER, "1", 1, 1⟩, ⟨.MINUS, "-", 1, 3⟩, ⟨.NUMBER, "2", 1, 5⟩,
          ⟨.MULTIPLY, "*", 1, 7⟩, ⟨.NUMBER, "3", 1, 9⟩, ⟨.EOF, "", 1, 10⟩], 0⟩ =
      .ok (.BinaryOperation (.Number (strToNat "1")) "-"
            (.BinaryOperation (.Number (strToNat "2")) "*" (.Number (strToNat "3"))),
           ⟨[⟨.NUMBER, "1", 1, 1⟩, ⟨.MINUS, "-", 1, 3⟩, ⟨.NUMBER, "2", 1, 5⟩,
             ⟨.MULTIPLY, "*", 1, 7⟩, ⟨.NUMBER, "3", 1, 9⟩, ⟨.EOF, "", 1, 10⟩], 5⟩) := by
  obtain ⟨h1, h2, h3, _⟩ := C1_precedence_left_assoc
  exact ⟨h1 "1" "2" "3" "+" "-" "" 1 1 1 5 1 9 1 3 1 7 1 10 0 .PLUS .MINUS
          (Or.inl rfl) (Or.inr rfl),
        h2 "1" "2" "3" "*" "/" "" 1 1 1 5 1 9 1 3 1 7 1 10 0 .MULTIPLY .DIVIDE
          (Or.inl rfl) (Or.inr rfl),
        h3 "1" "2" "3" "-" "*" "" 1 1 1 5 1 9 1 3 1 7 1 10 0 .MINUS .MULTIPLY
          (Or.inr rfl) (Or.inl rfl)⟩

/-- C3: the source `integer` scans as a single `Identifier` token
followed by the end marker; in general, when the letters `int` are
followed by a further identifier character, the whole-word keyword
pattern fails at the right boundary and the identifier pattern consumes
the entire word, so the scanner emits one `Identifier` token. -/
theorem C3_keyword_whole_word :
    tokenize "integer" = .ok [⟨.IDENTIFIER, "integer", 1, 1⟩, ⟨.EOF, "", 1, 8⟩] ∧
    ∀ (st : Lexer) (c : Char) (cs : List Char),
      st.source = 'i' :: 'n' :: 't' :: c :: cs → isWordChar c = true →
      matchIntKeyword st.prev st.source = none ∧
      ∃ st2, st.next_token =
        some (⟨.IDENTIFIER,
               String.mk ('i' :: 'n' :: 't' :: c :: cs.takeWhile isWordChar),
               st.line, st.column⟩, st2) := by
  refine ⟨rfl, ?_⟩
  intro st c cs hsrc hw
  have hm : matchIntKeyword st.prev st.source = none := by
    rw [hsrc, matchIntKeyword]
    simp [boundaryAfter, hw]
  have hid : matchIdentifier st.source =
      some ('i' :: 'n' :: 't' :: c :: cs.takeWhile isWordChar) := by
    have h1 : isIdentStart 'i' = true := rfl
    have h2 : isWordChar 'n' = true := rfl
    have h3 : isWordChar 't' = true := rfl
    rw [hsrc]
    simp [matchIdentifier, h1, h2, h3, hw]
  refine ⟨hm, st.advanceN ('i' :: 'n' :: 't' :: c :: cs.takeWhile isWordChar).length, ?_⟩
  simp [Lexer.next_token, hm, hid, Lexer.emit]

/-- Witness for C3: the general whole-word statement applied at the
scanner state whose remaining input is `intx`. -/
theorem C3_keyword_whole_word_witness :
    matchIntKeyword none "intx".data = none ∧
    ∃ st2, (⟨"intx".data, none, 1, 1⟩ : Lexer).next_token =
      some (⟨.IDENTIFIER, String.mk ('i' :: 'n' :: 't' :: 'x' :: [].takeWhile isWordChar),
             1, 1⟩, st2) :=
  (C3_keyword_whole_word).2 ⟨"intx".data, none, 1, 1⟩ 'x' [] rfl rfl

/-- C10: after a digit (as in the source `5int`) the keyword pattern has
no word boundary on its left and cannot match, so the scanner emits a
`Number` token and then an `Identifier` token with text `int`; in
general `int` matches the keyword pattern exactly when a word boundary
holds on both sides. -/
theorem C10_keyword_left_boundary :
    tokenize "5int" = .ok [⟨.NUMBER, "5", 1, 1⟩, ⟨.IDENTIFIER, "int", 1, 2⟩,
      ⟨.EOF, "", 1, 5⟩] ∧
    (∀ (p : Char) (s : List Char), isWordChar p = true →
      matchIntKeyword (some p) s = none) ∧
    (∀ (p : Option Char) (rest : List Char),
      matchIntKeyword p ('i' :: 'n' :: 't' :: rest) = some ['i', 'n', 't'] ↔
        (boundaryBefore p = true ∧ boundaryAfter rest = true)) := by
  refine ⟨rfl, ?_, ?_⟩
  · intro p s hw
    rw [matchIntKeyword.eq_def]
    split
    · simp [boundaryBefore, hw]
    · rfl
  · intro p rest
    rw [matchIntKeyword]
    by_cases hb : (boundaryBefore p && boundaryAfter rest) = true
    · rw [if_pos hb]
      rw [Bool.and_eq_true] at hb
      simp [hb.1, hb.2]
    · rw [if_neg hb]
      rw [Bool.and_eq_true] at hb
      simp only [not_and] at hb
      constructor
      · intro hcontra
        exact absurd hcontra (by simp)
      · intro hcontra
        exact absurd (hb hcontra.1 hcontra.2) (by simp [hcontra.2])
  
/-- Witness for C10: the general parts applied at the digit `5` and at
the word `int` followed by a non-word character. -/
theorem C10_keyword_left_boundary_witness :
    matchIntKeyword (some '5') "int".data = none ∧
    (matchIntKeyword none ('i' :: 'n' :: 't' :: [';']) = some ['i', 'n', 't'] ↔
      (boundaryBefore none = true ∧ boundaryAfter [';'] = true)) := by
  obtain ⟨_, h2, h3⟩ := C10_keyword_left_boundary
  exact ⟨h2 '5' "int".data rfl, h3 none [';']⟩

/-- C9: parentheses leave no trace: `parse_factor` on a parenthesized
expression returns the inner expression node itself (no grouping node
exists in the AST), so `x = (5);` and `x = 5;` produce identical trees. -/
theorem C9_paren_transparent :
    (∀ (f : Nat) (st : Parser) (e : ASTNode) (st1 : Parser) (tk : Token) (st2 : Parser),
      st.current_token.type = .LPAREN →
      Parser.parse_expression f st.advance = .ok (e, st1) →
      st1.expect .RPAREN = .ok (tk, st2) →
      Parser.parse_factor (f + 1) st = .ok (e, st2)) ∧
    parse_mini_c "x = (5);" = parse_mini_c "x = 5;" ∧
    parse_mini_c "x = (5);" = .ok (.Program [.Assignment (.Variable "x") (.Number 5)]) := by
  refine ⟨?_, rfl, rfl⟩
  intro f st e st1 tk st2 hL hE hX
  rw [Parser.parse_factor, hL]
  rw [if_neg (by simp), if_neg (by simp), if_pos rfl]
  simp only [hE, hX]

/-- Witness for C9: the factor-level statement applied to the tokens of
`(5)`. -/
theorem C9_paren_transparent_witness :
    Parser.parse_factor 11
      ⟨[⟨.LPAREN, "(", 1, 1⟩, ⟨.NUMBER, "5", 1, 2⟩, ⟨.RPAREN, ")", 1, 3⟩,
        ⟨.EOF, "", 1, 4⟩], 0⟩ =
    .ok (.Number (strToNat "5"),
         ⟨[⟨.LPAREN, "(", 1, 1⟩, ⟨.NUMBER, "5", 1, 2⟩, ⟨.RPAREN, ")", 1, 3⟩,
           ⟨.EOF, "", 1, 4⟩], 3⟩) :=
  (C9_paren_transparent).1 10
    ⟨[⟨.LPAREN, "(", 1, 1⟩, ⟨.NUMBER, "5", 1, 2⟩, ⟨.RPAREN, ")", 1, 3⟩,
      ⟨.EOF, "", 1, 4⟩], 0⟩
    (.Number (strToNat "5"))
    ⟨[⟨.LPAREN, "(", 1, 1⟩, ⟨.NUMBER, "5", 1, 2⟩, ⟨.RPAREN, ")", 1, 3⟩,
      ⟨.EOF, "", 1, 4⟩], 2⟩
    ⟨.RPAREN, ")", 1, 3⟩
    ⟨[⟨.LPAREN, "(", 1, 1⟩, ⟨.NUMBER, "5", 1, 2⟩, ⟨.RPAREN, ")", 1, 3⟩,
      ⟨.EOF, "", 1, 4⟩], 3⟩
    rfl rfl rfl
